import Mathlib

/-!
Verification of the batched ARIMA estimation pipeline
(`src/python/cuml/ts/arima.py`) against its natural-language specification.

The numeric domain of the source (numpy float64 arrays) is embedded as
`List ℚ` (vectors) and `List (List ℚ)` (matrices, stored as a list of
time-step rows, matching the `(num_samples, num_batches)` layout of the
source).  Fallible operations (Python `IndexError`, `ValueError`,
`AssertionError`, `NotImplementedError`, `FloatingPointError`) are embedded
as `Except String`.  External collaborators that are not part of this file's
source (the Kalman kernel `batched_kfilter`/`init_batched_kalman_matrices`
from `batched_kalman`, the optimizer `batched_fmin_lbfgs_b` from
`batched_lbfgs`, and the statsmodels coefficient transforms
`_ar_transparams`/`_ma_transparams`/`_ar_invtransparams`/`_ma_invtransparams`)
are taken as function parameters, exactly as the spec treats them
("consumed as a function that ...").
-/

namespace Arima

/-! ## Parameter codec: `unpack` (arima.py lines 341-353) and `pack` (355-364)

`unpack(p, q, nb, x)` loops `i in range(nb)` and takes the numpy slice
`xi = x[i*num_parameters:(i+1)*num_parameters]`.  Numpy slicing clamps to
the available length, so `xi` is empty (and `mu[i] = xi[0]` raises an
`IndexError`) exactly when `len(x) <= i*num_parameters`; a non-empty but
short slice is accepted silently.  The slice of the original vector at
offset `i*num_parameters` equals the slice of `x.drop num_parameters`
processed one member later, which gives the structural recursion below. -/

def unpack (p q : ℕ) : ℕ → List ℚ → Except String (List ℚ × List (List ℚ) × List (List ℚ))
  | 0, _ => .ok ([], [], [])
  | nb + 1, x =>
    match x.take (1 + p + q) with
    | [] => .error "IndexError: index 0 is out of bounds"
    | x0 :: rest => do
      let (mus, ars, mas) ← unpack p q nb (x.drop (1 + p + q))
      .ok (x0 :: mus, (rest.take p) :: ars, (rest.drop p) :: mas)

/-- `pack(p, q, nb, mu, ar, ma)` allocates `zeros(num_parameters*nb)` and
assigns `x[i*np : (i+1)*np] = concatenate([mu[i]], ar[i], ma[i])` for each
member.  Indexing `mu[i]`, `ar[i]`, `ma[i]` raises `IndexError` when fewer
than `nb` members are supplied; the numpy slice assignment raises a
`ValueError` unless the right-hand side has length `1+p+q` (exact fit) or
length `1` (in which case numpy broadcasts the single scalar over the
slot). -/
def pack (p q : ℕ) : ℕ → List ℚ → List (List ℚ) → List (List ℚ) → Except String (List ℚ)
  | 0, _, _, _ => .ok []
  | nb + 1, mu, ar, ma =>
    match mu, ar, ma with
    | m :: mu', a :: ar', b :: ma' => do
      let xi := m :: (a ++ b)
      let block ←
        if xi.length = 1 + p + q then .ok xi
        else if xi.length = 1 then .ok (List.replicate (1 + p + q) m)
        else .error "ValueError: could not broadcast input array"
      let restx ← pack p q nb mu' ar' ma'
      .ok (block ++ restx)
    | _, _, _ => .error "IndexError: list index out of range"

def isErr {ε α : Type} : Except ε α → Bool
  | .error _ => true
  | .ok _ => false

/-! ## Differencing utility (arima.py lines 402-405 and uses of `np.diff`)

`np.diff` along the time axis of a single series: `y[1:] - y[:-1]`. -/

def npdiff (y : List ℚ) : List ℚ := List.zipWith (· - ·) (y.drop 1) y

/-- `np.cumsum` with explicit running total: `cumsumFrom a l` is the list of
partial sums of `l` started from `a`. -/
def cumsumFrom (a : ℚ) : List ℚ → List ℚ
  | [] => []
  | x :: xs => (a + x) :: cumsumFrom (a + x) xs

def cumsum (l : List ℚ) : List ℚ := cumsumFrom 0 l

/-- `undifference(x, x0)` (arima.py lines 402-405): `xi = np.append(x0, x);
return np.cumsum(xi)`.  Note that it returns the *full* cumulative sum,
seed element included; the caller in `forecast` (line 335) drops the seed
with `[1:]`. -/
def undifference (x : List ℚ) (x0 : ℚ) : List ℚ := cumsum (x0 :: x)

/-! ## Recursive forecast generator `fc_single` (arima.py lines 294-317) -/

/-- numpy `l[-n:]` for `n ≥ 1` (the source only evaluates it under `p > 0`
resp. `q > 0` guards). -/
def lastN (n : ℕ) (l : List ℚ) : List ℚ := l.drop (l.length - n)

/-- `np.dot` on equal-length float vectors. -/
def dotq (a b : List ℚ) : ℚ := (List.zipWith (· * ·) a b).sum

/-- Body of the `for i in range(num_steps)` loop of `fc_single`:
`fcast[i] = mu*(1-ar.sum()) (+ np.dot(ar, y_[i:i+p]) if p>0)
(+ np.dot(ma, vs_[i:i+q]) if q>0 and i<q)`. -/
def fcStep (p q : ℕ) (mu : ℚ) (ar ma vsbuf : List ℚ) (i : ℕ) (ybuf : List ℚ) : ℚ :=
  mu * (1 - ar.sum)
    + (if 0 < p then dotq ar ((ybuf.drop i).take p) else 0)
    + (if 0 < q ∧ i < q then dotq ma ((vsbuf.drop i).take q) else 0)

/-- State of the `fc_single` loop after `k` iterations: the forecasts
produced so far and the working buffer `y_` (into which each new forecast
is written at position `i + p` when `p > 0`). -/
def fcRun (p q : ℕ) (mu : ℚ) (ar ma ybuf0 vsbuf : List ℚ) : ℕ → List ℚ × List ℚ
  | 0 => ([], ybuf0)
  | k + 1 =>
    let s := fcRun p q mu ar ma ybuf0 vsbuf k
    let v := fcStep p q mu ar ma vsbuf k s.2
    (s.1 ++ [v], if 0 < p then s.2.set (k + p) v else s.2)

/-- `fc_single(num_steps, order, y_diff, vs, mu, ma_params, ar_params)`
(arima.py lines 294-317): initialises `y_ = zeros(p+num_steps)` with
`y_[:p] = y_diff[-p:]` (when `p>0`) and `vs_ = zeros(q+num_steps)` with
`vs_[:q] = vs[-q:]` (when `q>0`), then runs the forecast loop. -/
def fc_single (numSteps : ℕ) (order : ℕ × ℕ × ℕ) (y_diff vs : List ℚ)
    (mu : ℚ) (ma_params ar_params : List ℚ) : List ℚ :=
  let p := order.1
  let q := order.2.2
  let ybuf0 := (if 0 < p then lastN p y_diff else []) ++ List.replicate numSteps 0
  let vsbuf := (if 0 < q then lastN q vs else []) ++ List.replicate numSteps 0
  (fcRun p q mu ar_params ma_params ybuf0 vsbuf numSteps).1

/-! ## The batched model (class `ARIMAModel`, arima.py lines 13-56)

`y` is stored as a list of time-step rows, each row holding one value per
batch member (the `(num_samples, num_batches)` numpy layout).  The
constructor sets `yp = None` and `niter = None`. -/

structure ARIMAModel where
  order : List (ℕ × ℕ × ℕ)
  mu : List ℚ
  ar_params : List (List ℚ)
  ma_params : List (List ℚ)
  y : List (List ℚ)
  yp : Option (List (List ℚ))
  niter : Option ℕ
deriving DecidableEq

def mkARIMAModel (order : List (ℕ × ℕ × ℕ)) (mu : List ℚ)
    (ar_params ma_params : List (List ℚ)) (y : List (List ℚ)) : ARIMAModel :=
  ⟨order, mu, ar_params, ma_params, y, none, none⟩

def ARIMAModel.num_samples (m : ARIMAModel) : ℕ := m.y.length

def ARIMAModel.num_batches (m : ARIMAModel) : ℕ := (m.y.headD []).length

/-- `_model_complexity` (arima.py lines 59-62): `1 + p + q`. -/
def model_complexity (order : ℕ × ℕ × ℕ) : ℕ := 1 + order.1 + order.2.2

/-- Column `i` of a row-major matrix (`M[:, i]`). -/
def colOf (M : List (List ℚ)) (i : ℕ) : List ℚ := M.map (fun row => row.getD i 0)

/-- Row-wise `np.diff(y, axis=0)`. -/
def diffRows (y : List (List ℚ)) : List (List ℚ) :=
  List.zipWith (fun r r' => List.zipWith (· - ·) r r') (y.drop 1) y

/-- Elementwise matrix subtraction (shapes are equal in all uses). -/
def matSub (A B : List (List ℚ)) : List (List ℚ) :=
  List.zipWith (fun r r' => List.zipWith (· - ·) r r') A B

def matAdd (A B : List (List ℚ)) : List (List ℚ) :=
  List.zipWith (fun r r' => List.zipWith (· + ·) r r') A B

/-- `diffAndCenter` (arima.py lines 200-210): `y_diff = np.diff(y, axis=0)`;
`B0[i] = mu[i]` for `i` ranging over `zip(mu, ar_params)` (so only the first
`min(len mu, len ar_params)` entries are filled, the rest stay `0`); returns
`y_diff - B0` (broadcast over rows). -/
def diffAndCenter (y : List (List ℚ)) (num_batches : ℕ)
    (mu : List ℚ) (ar_params : List (List ℚ)) : List (List ℚ) :=
  let B0 := (List.range num_batches).map
    (fun i => if i < min mu.length ar_params.length then mu.getD i 0 else 0)
  (diffRows y).map (fun row => List.zipWith (· - ·) row B0)

/-- The external Kalman kernel: `init_batched_kalman_matrices` builds the
state-space matrices `Zb, Rb, Tb, r` from the AR/MA coefficients and
`batched_kfilter` consumes them together with the (possibly differenced and
centered) series, returning one log-likelihood per member and the one-step
innovations.  Both live in `batched_kalman` (outside this source file and
declared an external collaborator by the spec), so the composite is taken
as an opaque function of the coefficients and the series. -/
def KalmanKernel : Type :=
  List (List ℚ) → List (List ℚ) → List (List ℚ) → List ℚ × List (List ℚ)

/-- `assert_same_d` (arima.py lines 407-410): `b_d = [d for _, d, _ in
b_order]; assert (np.array(b_d) == b_d[0]).all()`.  Indexing `b_d[0]` fails
on an empty order list. -/
def same_d (b_order : List (ℕ × ℕ × ℕ)) : Bool :=
  b_order.all (fun o => o.2.1 = (b_order.headD (0, 0, 0)).2.1)

/-- `run_kalman` (arima.py lines 213-244): builds the matrices, asserts a
batch-uniform `d`, then runs the kernel on the raw series when `d == 0`, on
the differenced-and-centered series when `d == 1`, and raises
`NotImplementedError` otherwise. -/
def run_kalman (kernel : KalmanKernel) (model : ARIMAModel) :
    Except String (List ℚ × List (List ℚ)) :=
  if model.order.isEmpty then .error "IndexError: list index out of range"
  else if same_d model.order then
    match (model.order.headD (0, 0, 0)).2.1 with
    | 0 => .ok (kernel model.ar_params model.ma_params model.y)
    | 1 => .ok (kernel model.ar_params model.ma_params
        (diffAndCenter model.y model.num_batches model.mu model.ar_params))
    | _ => .error "NotImplementedError: ARIMA only support d==0,1"
  else .error "AssertionError: same d"

/-- `loglike` (arima.py lines 247-250), in state-passing form: the source
reads the model and assigns no attribute, so the returned model is the
input one. -/
def loglike (kernel : KalmanKernel) (model : ARIMAModel) :
    Except String (List ℚ × ARIMAModel) :=
  (run_kalman kernel model).map (fun r => (r.1, model))

/-- `aic` (arima.py lines 52-56): `[-2*lli + 2*(1+p+q) for (i, lli) in
enumerate(loglike(self))]`. -/
def aic (kernel : KalmanKernel) (model : ARIMAModel) :
    Except String (List ℚ × ARIMAModel) :=
  (loglike kernel model).map (fun r =>
    ((List.range r.1.length).map (fun i =>
      -2 * r.1.getD i 0 + 2 * (model_complexity (model.order.getD i (0, 0, 0)))),
     model))

/-- `bic` (arima.py lines 46-50): as `aic` with penalty weight
`np.log(len(self.y))`; the transcendental logarithm is taken as an opaque
function of the series length. -/
def bic (logFn : ℕ → ℚ) (kernel : KalmanKernel) (model : ARIMAModel) :
    Except String (List ℚ × ARIMAModel) :=
  (loglike kernel model).map (fun r =>
    ((List.range r.1.length).map (fun i =>
      -2 * r.1.getD i 0 + logFn model.y.length * (model_complexity (model.order.getD i (0, 0, 0)))),
     model))

/-- `predict_in_sample` (arima.py lines 253-292), in state-passing form.
After computing the prediction matrix `y_p` the source executes
`model.yp = y_p` (line 291), so the returned model carries `yp := some y_p`
while every other attribute is passed through unchanged. -/
def predict_in_sample (kernel : KalmanKernel) (model : ARIMAModel) :
    Except String (List (List ℚ) × ARIMAModel) := do
  let r ← run_kalman kernel model
  let vs := r.2
  if model.order.isEmpty then .error "IndexError: list index out of range"
  else if same_d model.order then
    let d := (model.order.headD (0, 0, 0)).2.1
    let y_p ←
      if d = 0 then .ok (matSub model.y vs)
      else if d = 1 then
        let y_diff := diffRows model.y
        let predict := matSub y_diff vs
        let base := matAdd (model.y.dropLast) predict
        -- forecast one further step per member and append it as a row
        let fc1 := (List.range model.num_batches).map (fun i =>
          (fc_single 1 (model.order.getD i (0, 0, 0)) (colOf y_diff i) (colOf vs i)
            (model.mu.getD i 0) (model.ma_params.getD i []) (model.ar_params.getD i [])).getD 0 0)
        let final := List.zipWith (· + ·) (model.y.getLastD []) fc1
        .ok (base ++ [final])
      else .error "NotImplementedError: Only support d==0,1"
    .ok (y_p, { model with yp := some y_p })
  else .error "AssertionError: same d"

/-- `forecast` (arima.py lines 320-339): per member `i`, run `fc_single` on
the differenced column and the member's innovations, undifference (dropping
the seed) when `d > 0`, and collect the columns into an
`(nsteps, num_batches)` matrix. -/
def forecast (kernel : KalmanKernel) (model : ARIMAModel) (nsteps : ℕ) :
    Except String (List (List ℚ) × ARIMAModel) := do
  let r ← run_kalman kernel model
  let vs := r.2
  let cols := (List.range model.num_batches).map (fun i =>
    let o := model.order.getD i (0, 0, 0)
    let fc := fc_single nsteps o (npdiff (colOf model.y i)) (colOf vs i)
      (model.mu.getD i 0) (model.ma_params.getD i []) (model.ar_params.getD i [])
    if 0 < o.2.1 then (undifference fc ((model.y.getLastD []).getD i 0)).drop 1 else fc)
  .ok ((List.range nsteps).map (fun t => cols.map (fun c => c.getD t 0)), model)

/-! ## Finite-difference gradient `ll_gf` (arima.py lines 92-127)

`ll_gf` evaluates the batched log-likelihood `ll_f` at perturbed parameter
vectors.  `ll_f` (lines 65-90) composes the stationarity transform, the
codec and the external Kalman kernel; for the gradient structure only its
input/output behaviour matters, so it enters as a function parameter
`f : List ℚ → List ℚ` returning one log-likelihood per batch member. -/

/-- `np.tile(l, n)`: `n` concatenated copies of `l`. -/
def tile (l : List ℚ) (n : ℕ) : List ℚ := (List.replicate n l).flatten

/-- The perturbation vector of iteration `i`: `fd = zeros(num_parameters);
fd[i] = h; fdph = np.tile(fd, num_batches)`. -/
def perturb (num_parameters num_batches : ℕ) (h : ℚ) (i : ℕ) : List ℚ :=
  tile ((List.replicate num_parameters 0).set i h) num_batches

def vadd (a b : List ℚ) : List ℚ := List.zipWith (· + ·) a b

def vsub (a b : List ℚ) : List ℚ := List.zipWith (· - ·) a b

/-- numpy strided slice assignment `g[start::step] = vals` (element `k` of
`vals` lands at index `start + k*step`; the source asserts that `vals` has
exactly the length of the slice). -/
def setStrided (g : List ℚ) (start step : ℕ) (vals : List ℚ) : List ℚ :=
  (List.range g.length).map (fun j =>
    if start ≤ j ∧ (j - start) % step = 0 ∧ (j - start) / step < vals.length
    then vals.getD ((j - start) / step) 0
    else g.getD j 0)

/-- The body of the `for i in range(num_parameters)` loop of `ll_gf`:
evaluate at `x+fdph` and `x-fdph`, form the central difference
`(ll_b_ph - ll_b_mh)/(2h)` per member, and scatter it with
`grad[i::num_parameters] = grad_i_b` (or the scalar assignment
`grad[i] = grad_i_b` when `num_batches == 1`). -/
def gradStep (f : List ℚ → List ℚ) (num_batches num_parameters : ℕ)
    (x : List ℚ) (h : ℚ) (grad : List ℚ) (i : ℕ) : List ℚ :=
  let fdph := perturb num_parameters num_batches h i
  let grad_i_b :=
    (List.zipWith (· - ·) (f (vadd x fdph)) (f (vsub x fdph))).map (· / (2 * h))
  if num_batches = 1 then grad.set i (grad_i_b.getD 0 0)
  else setStrided grad i num_parameters grad_i_b

/-- `ll_gf(num_batches, num_parameters, order, y, x, h)` (lines 92-127):
`grad = np.zeros(len(x))`, then the per-parameter central-difference loop. -/
def ll_gf (f : List ℚ → List ℚ) (num_batches num_parameters : ℕ)
    (x : List ℚ) (h : ℚ) : List ℚ :=
  (List.range num_parameters).foldl
    (gradStep f num_batches num_parameters x h)
    (List.replicate x.length 0)

/-- The slot set written by gradient iteration `i`:
`i, i + num_parameters, i + 2*num_parameters, ...`. -/
def writtenSlots (i num_parameters num_batches : ℕ) : List ℕ :=
  (List.range num_batches).map (fun k => i + k * num_parameters)

/-! ## Stationarity transform wrappers and `fit`
(arima.py lines 366-400 and 130-197)

The statsmodels coefficient transforms `_ar_transparams`/`_ma_transparams`
and their inverses are external; they enter as function parameters
`arT/maT/arIT/maIT`.  `np.isnan`/`np.isinf` detection has no rational
counterpart and enters as a predicate parameter `bad`. -/

/-- `batch_trans(p, q, nb, x)` (lines 366-382): unpack, apply the forward
transforms per member, repack.  (Its `np.seterr` calls are modelled by
`batch_transTrace` below.) -/
def batch_trans (arT maT : List ℚ → List ℚ) (p q nb : ℕ) (x : List ℚ) :
    Except String (List ℚ) := do
  let r ← unpack p q nb x
  pack p q nb r.1 (r.2.1.map arT) (r.2.2.map maT)

/-- `batch_invtrans(p, q, nb, x)` (lines 384-400): unpack, apply the
inverse transforms per member, assert the results are free of inf/nan,
repack. -/
def batch_invtrans (bad : ℚ → Bool) (arIT maIT : List ℚ → List ℚ)
    (p q nb : ℕ) (x : List ℚ) : Except String (List ℚ) := do
  let r ← unpack p q nb x
  let ar2 := r.2.1.map arIT
  let ma2 := r.2.2.map maIT
  if ar2.any (fun v => v.any bad) || ma2.any (fun v => v.any bad) then
    .error "AssertionError: inf or nan after inverse transform"
  else pack p q nb r.1 ar2 ma2

/-- `fit` (lines 130-197), on the branch where `mu0` is supplied as a
per-member array: pack the initial coefficients, inverse-transform them,
fail on NaN/Inf, hand the objective and gradient closures to the external
`batched_fmin_lbfgs_b` (taken as an opaque map `opt` from the initial
vector to `(x, niter, flags)`; the closures have no effect on `fit`'s own
locals), warn — without failing — when any member's status flag is
non-zero, then forward-transform, unpack and build the fitted model with
the iteration count.  The returned `Bool` records whether the warning was
printed. -/
def fit (bad : ℚ → Bool) (arT maT arIT maIT : List ℚ → List ℚ)
    (opt : List ℚ → List ℚ × ℕ × List ℤ)
    (y : List (List ℚ)) (order : ℕ × ℕ × ℕ)
    (mu0 : List ℚ) (ar0 ma0 : List (List ℚ)) :
    Except String (Bool × ARIMAModel) := do
  let p := order.1
  let q := order.2.2
  let nb := (y.headD []).length
  let x0 ← pack p q nb mu0 ar0 ma0
  let x0' ← batch_invtrans bad arIT maIT p q nb x0
  if x0'.any bad then
    .error "FloatingPointError: Initial condition x0 has NaN or Inf."
  else
    let r := opt x0'
    let warned := r.2.2.any (fun fl => fl != 0)
    let tx ← batch_trans arT maT p q nb r.1
    let u ← unpack p q nb tx
    .ok (warned,
      { order := List.replicate nb order, mu := u.1, ar_params := u.2.1,
        ma_params := u.2.2, y := y, yp := none, niter := some r.2.1 })

/-! ## Model selector `grid_search` (arima.py lines 435-475)

The information-criterion scores are float64 values that may be NaN; the
ordering-relevant part of that domain is embedded as `F` with the IEEE
comparison rule `NaN < x = false`.  The candidate fits (`fit` plus
`aic`/`bic`, both dependent on the external optimizer and kernel) enter as
functions `score` (per-member criteria of candidate `(p, q)`) and `cand`
(its per-member `mu`, `ar`, `ma`). -/

inductive F where
  | val (x : ℚ)
  | nan
deriving DecidableEq

/-- IEEE-754 `<`: any comparison against NaN is false. -/
def Flt : F → F → Bool
  | .val a, .val b => decide (a < b)
  | _, _ => false

/-- `np.finfo(np.float64).max / 2 = (2^53 - 1) * 2^970`. -/
def float64MaxHalf : F := .val ((2 ^ 53 - 1) * 2 ^ 970)

/-- The per-member fields of `best_model` plus `best_ic` (lines 444-446):
`best_model = ARIMAModel([[]]*nb, zeros(nb), [[]]*nb, [[]]*nb, y_b)` next
to `best_ic = np.full(nb, finfo(float64).max/2)`.  (The Python object holds
an empty list where a fitted member holds an `(p, d, q)` tuple, so the
per-member order is a `List ℕ` here.) -/
structure GridState where
  orders : List (List ℕ)
  mu : List ℚ
  ar : List (List ℚ)
  ma : List (List ℚ)
  ic : List F
deriving DecidableEq

def gridInit (nb : ℕ) : GridState :=
  ⟨List.replicate nb [], List.replicate nb 0, List.replicate nb [],
   List.replicate nb [], List.replicate nb float64MaxHalf⟩

/-- The per-candidate update loop (lines 467-473): for each member `i`, if
`ic[i] < best_ic[i]` then replace order, `mu`, `ar`, `ma` and `best_ic`. -/
def gsUpdate (pdq : List ℕ) (s : List F) (cmu : List ℚ)
    (car cma : List (List ℚ)) (st : GridState) : GridState :=
  (List.range s.length).foldl (fun st i =>
    if Flt (s.getD i .nan) (st.ic.getD i float64MaxHalf) then
      { orders := st.orders.set i pdq
        mu := st.mu.set i (cmu.getD i 0)
        ar := st.ar.set i (car.getD i [])
        ma := st.ma.set i (cma.getD i [])
        ic := st.ic.set i (s.getD i .nan) }
    else st) st

/-- `grid_search` (lines 435-475): iterate `p in range(max_p)`,
`q in range(max_q)`, skip `(0, 0)`, fit and score the candidate, and fold
the per-member replace-if-better step. -/
def grid_search (nb max_p max_q d : ℕ)
    (score : ℕ → ℕ → List F)
    (cand : ℕ → ℕ → List ℚ × List (List ℚ) × List (List ℚ)) : GridState :=
  (List.range max_p).foldl (fun st p =>
    (List.range max_q).foldl (fun st q =>
      if p = 0 ∧ q = 0 then st
      else gsUpdate [p, d, q] (score p q) (cand p q).1 (cand p q).2.1 (cand p q).2.2 st) st)
    (gridInit nb)

/-! ## Floating-point fault-mode traces (the `np.seterr` calls)

The source toggles numpy's process-wide floating-point-exception mode with
`np.seterr(all='raise')` (strict) and `np.seterr(all='warn')` (permissive)
at fixed program points: `fit` line 143, `ll_gf` line 115, `batch_trans`
lines 371 and 379.  The mode is threaded explicitly and each numerically
sensitive external call is recorded as an event tagged with the mode in
effect when it runs. -/

inductive FpMode where
  | strict
  | permissive
deriving DecidableEq

inductive FpEvent where
  /-- a statsmodels `_ar_transparams`/`_ma_transparams` call inside `batch_trans` -/
  | transCall (m : FpMode)
  /-- a statsmodels inverse-transform call inside `batch_invtrans` -/
  | invTransCall (m : FpMode)
  /-- a `batched_kfilter` evaluation inside `ll_f`'s `loglike` -/
  | kalmanEval (m : FpMode)
  /-- the `(ll_b_ph - ll_b_mh)/(2*h)` arithmetic in `ll_gf` (line 116) -/
  | centralDiff (m : FpMode)
deriving DecidableEq

/-- `batch_trans` (lines 366-382): `np.seterr(all='raise')` before its
loop of `2*nb` statsmodels calls, `np.seterr(all='warn')` after it —
so the internal calls run strict and the function exits permissive,
whatever mode it inherited. -/
def batch_transTrace (nb : ℕ) (_m0 : FpMode) : List FpEvent × FpMode :=
  (List.replicate (2 * nb) (FpEvent.transCall .strict), .permissive)

/-- `batch_invtrans` (lines 384-400) contains no `np.seterr` call: its
`2*nb` statsmodels calls run in the inherited mode. -/
def batch_invtransTrace (nb : ℕ) (m0 : FpMode) : List FpEvent × FpMode :=
  (List.replicate (2 * nb) (FpEvent.invTransCall m0), m0)

/-- `ll_f` (lines 65-90): with `trans=True` it calls `batch_trans` and then
evaluates the Kalman kernel in whatever mode `batch_trans` left behind. -/
def ll_fTrace (trans : Bool) (nb : ℕ) (m0 : FpMode) : List FpEvent × FpMode :=
  if trans then
    let r := batch_transTrace nb m0
    (r.1 ++ [FpEvent.kalmanEval r.2], r.2)
  else ([FpEvent.kalmanEval m0], m0)

/-- `ll_gf` (lines 92-127): each iteration evaluates `ll_f` twice, then
executes `np.seterr(all='raise')` (line 115) immediately before the
central-difference arithmetic. -/
def ll_gfTrace (num_parameters nb : ℕ) (trans : Bool) (m0 : FpMode) :
    List FpEvent × FpMode :=
  (List.range num_parameters).foldl (fun acc _ =>
    let r1 := ll_fTrace trans nb acc.2
    let r2 := ll_fTrace trans nb r1.2
    (acc.1 ++ r1.1 ++ r2.1 ++ [FpEvent.centralDiff .strict], FpMode.strict))
    ([], m0)

/-- `fit` (lines 130-197): `np.seterr(all='raise')` at entry (line 143),
`batch_invtrans` on the initial point, then the external optimizer invokes
the objective (`ll_f` with `trans=True`) and gradient (`ll_gf` with
`trans=True`) closures in some pattern `optCalls` (`true` = objective,
`false` = gradient), and finally `batch_trans` forward-transforms the
result (line 192). -/
def fitTrace (optCalls : List Bool) (num_parameters nb : ℕ) : List FpEvent × FpMode :=
  let minv := batch_invtransTrace nb .strict
  let afterOpt := optCalls.foldl (fun acc c =>
    let r := if c then ll_fTrace true nb acc.2 else ll_gfTrace num_parameters nb true acc.2
    (acc.1 ++ r.1, r.2)) minv
  let fin := batch_transTrace nb afterOpt.2
  (afterOpt.1 ++ fin.1, fin.2)

/-- The fault-mode discipline the source actually implements: every
stationarity-transform internal call, inverse-transform call and
central-difference arithmetic runs strict, while every Kalman likelihood
evaluation issued during optimization runs permissive. -/
def modeOk : FpEvent → Bool
  | .transCall m => m == .strict
  | .invTransCall m => m == .strict
  | .centralDiff m => m == .strict
  | .kalmanEval m => m == .permissive

/-! ### Codec shape lemmas -/

/-! ### Codec shape lemmas -/

theorem pack_ok (p q : ℕ) :
    ∀ (nb : ℕ) (mu : List ℚ) (ar ma : List (List ℚ)),
    mu.length = nb → ar.length = nb → ma.length = nb →
    (∀ a ∈ ar, a.length = p) → (∀ b ∈ ma, b.length = q) →
    ∃ x : List ℚ, pack p q nb mu ar ma = .ok x ∧ x.length = nb * (1 + p + q) := by
  intro nb
  induction nb with
  | zero =>
    intro mu ar ma hmu har hma _ _
    exact ⟨[], rfl, by simp⟩
  | succ n ih =>
    intro mu ar ma hmu har hma hap hbq
    match mu, ar, ma with
    | m :: mu', a :: ar', b :: ma' =>
      have ha : a.length = p := hap a (by simp)
      have hb : b.length = q := hbq b (by simp)
      obtain ⟨x, hx, hlen⟩ := ih mu' ar' ma'
        (by simpa using hmu) (by simpa using har) (by simpa using hma)
        (fun a' h' => hap a' (List.mem_cons_of_mem _ h'))
        (fun b' h' => hbq b' (List.mem_cons_of_mem _ h'))
      have hxi : (m :: (a ++ b)).length = 1 + p + q := by
        simp [ha, hb]; ring
      refine ⟨(m :: (a ++ b)) ++ x, ?_, ?_⟩
      · simp only [pack, hxi, if_pos rfl, hx]; rfl
      · simp only [List.length_append, hxi, hlen]
        ring

theorem unpack_pack (p q : ℕ) :
    ∀ (nb : ℕ) (mu : List ℚ) (ar ma : List (List ℚ)),
    mu.length = nb → ar.length = nb → ma.length = nb →
    (∀ a ∈ ar, a.length = p) → (∀ b ∈ ma, b.length = q) →
    (pack p q nb mu ar ma).bind (unpack p q nb) = .ok (mu, ar, ma) := by
  intro nb
  induction nb with
  | zero =>
    intro mu ar ma hmu har hma _ _
    have : mu = [] := List.length_eq_zero.mp hmu
    have h2 : ar = [] := List.length_eq_zero.mp har
    have h3 : ma = [] := List.length_eq_zero.mp hma
    subst this; subst h2; subst h3
    rfl
  | succ n ih =>
    intro mu ar ma hmu har hma hap hbq
    match mu, ar, ma with
    | m :: mu', a :: ar', b :: ma' =>
      have ha : a.length = p := hap a (by simp)
      have hb : b.length = q := hbq b (by simp)
      have hmu' : mu'.length = n := by simpa using hmu
      have har' : ar'.length = n := by simpa using har
      have hma' : ma'.length = n := by simpa using hma
      have hap' := fun a' h' => hap a' (List.mem_cons_of_mem _ h')
      have hbq' := fun b' h' => hbq b' (List.mem_cons_of_mem _ h')
      obtain ⟨x, hx, hlen⟩ := pack_ok p q n mu' ar' ma' hmu' har' hma' hap' hbq'
      have hxi : (m :: (a ++ b)).length = 1 + p + q := by
        simp [ha, hb]; ring
      have hrec := ih mu' ar' ma' hmu' har' hma' hap' hbq'
      rw [hx] at hrec
      have hblock : ((m :: (a ++ b)) ++ x).take (1 + p + q) = m :: (a ++ b) := by
        rw [List.take_append_of_le_length (by omega)]
        exact List.take_of_length_le (by omega)
      have hdrop : ((m :: (a ++ b)) ++ x).drop (1 + p + q) = x := by
        rw [List.drop_append_of_le_length (by omega)]
        simp [List.drop_of_length_le (le_of_eq hxi)]
      -- evaluate `pack` on the cons case
      simp only [pack, hxi, if_pos rfl, hx]
      show (Except.ok ((m :: (a ++ b)) ++ x)).bind (unpack p q (n+1)) = _
      simp only [Except.bind]
      rw [unpack]
      rw [hblock]
      simp only [hdrop]
      rw [show unpack p q n x = .ok (mu', ar', ma') from by simpa [Except.bind] using hrec]
      simp only [Except.bind, bind, pure]
      rw [List.take_append_of_le_length (le_of_eq ha.symm),
          List.take_of_length_le (le_of_eq ha),
          List.drop_append_of_le_length (le_of_eq ha.symm),
          List.drop_of_length_le (le_of_eq ha)]
      rfl

theorem isErr_bind_ok {ε α β : Type} (e : Except ε α) (g : α → β) :
    isErr (e.bind fun t => Except.ok (g t)) = isErr e := by
  cases e <;> rfl

/-- `unpack` raises an `IndexError` exactly when the flat vector is too short
to give every batch member a non-empty block: numpy slices clamp, so the
block of member `i` is empty iff `len x ≤ i*(1+p+q)`, worst at `i = nb-1`. -/
theorem unpack_isErr_iff (p q : ℕ) :
    ∀ (nb : ℕ) (x : List ℚ), 1 ≤ nb →
    (isErr (unpack p q nb x) = true ↔ x.length ≤ (nb - 1) * (1 + p + q)) := by
  intro nb
  induction nb with
  | zero => intro x h; omega
  | succ n ih =>
    intro x _
    match x with
    | [] =>
      constructor
      · intro _; simp
      · intro _; rw [unpack, List.take_nil]; rfl
    | a :: as =>
      have htake : (a :: as).take (1 + p + q) = a :: as.take (p + q) := by
        rw [show 1 + p + q = (p + q) + 1 by omega]
        rfl
      have hstep : isErr (unpack p q (n + 1) (a :: as)) =
          isErr (unpack p q n ((a :: as).drop (1 + p + q))) := by
        rw [unpack, htake]
        exact isErr_bind_ok _ _
      match n with
      | 0 =>
        rw [hstep]
        constructor
        · intro h; exact absurd h (by rw [unpack]; simp [isErr])
        · intro h; simp at h
      | m + 1 =>
        rw [hstep]
        rw [ih ((a :: as).drop (1 + p + q)) (by omega)]
        rw [List.length_drop, List.length_cons]
        have hmul : (m + 1) * (1 + p + q) = m * (1 + p + q) + (1 + p + q) :=
          Nat.succ_mul m (1 + p + q)
        simp only [Nat.succ_sub_one]
        omega

/-! ### Codec shape lemmas for `fit` -/

theorem exceptBind_ok {ε α β : Type} (a : α) (f : α → Except ε β) :
    (Except.ok a : Except ε α) >>= f = f a := rfl

theorem exceptBind_err {ε α β : Type} (e : ε) (f : α → Except ε β) :
    (Except.error e : Except ε α) >>= f = Except.error e := rfl


theorem unpack_shape (p q : ℕ) :
    ∀ (nb : ℕ) (x : List ℚ), x.length = nb * (1 + p + q) →
    ∃ mu ar ma, unpack p q nb x = .ok (mu, ar, ma)
      ∧ mu.length = nb ∧ ar.length = nb ∧ ma.length = nb
      ∧ (∀ a ∈ ar, a.length = p) ∧ (∀ b ∈ ma, b.length = q) := by
  intro nb
  induction nb with
  | zero =>
    intro x _
    exact ⟨[], [], [], rfl, rfl, rfl, rfl, by simp, by simp⟩
  | succ n ih =>
    intro x hx
    rw [Nat.succ_mul] at hx
    match x with
    | [] => simp at hx; omega
    | a :: as =>
      have hlen : as.length = n * (1 + p + q) + p + q := by
        have := congrArg id hx
        simp only [List.length_cons] at hx
        omega
      obtain ⟨mu, ar, ma, hrec, h1, h2, h3, h4, h5⟩ :=
        ih ((a :: as).drop (1 + p + q)) (by
          rw [List.length_drop, List.length_cons, hlen]
          omega)
      have htake : (a :: as).take (1 + p + q) = a :: as.take (p + q) := by
        rw [show 1 + p + q = (p + q) + 1 by omega]
        rfl
      refine ⟨a :: mu, (as.take (p + q)).take p :: ar, ((as.take (p + q)).drop p) :: ma,
        ?_, by simpa using h1, by simpa using h2, by simpa using h3, ?_, ?_⟩
      · rw [unpack, htake, hrec]
        rfl
      · intro a' ha'
        rcases List.mem_cons.mp ha' with rfl | hmem
        · rw [List.length_take, List.length_take, hlen]
          omega
        · exact h4 a' hmem
      · intro b' hb'
        rcases List.mem_cons.mp hb' with rfl | hmem
        · rw [List.length_drop, List.length_take, hlen]
          omega
        · exact h5 b' hmem

theorem batch_trans_ok (arT maT : List ℚ → List ℚ) (p q nb : ℕ) (x : List ℚ)
    (hx : x.length = nb * (1 + p + q))
    (harT : ∀ l, (arT l).length = l.length) (hmaT : ∀ l, (maT l).length = l.length) :
    ∃ tx, batch_trans arT maT p q nb x = .ok tx ∧ tx.length = nb * (1 + p + q) := by
  obtain ⟨mu, ar, ma, hu, h1, h2, h3, h4, h5⟩ := unpack_shape p q nb x hx
  obtain ⟨tx, hp, hplen⟩ := pack_ok p q nb mu (ar.map arT) (ma.map maT)
    h1 (by simpa using h2) (by simpa using h3)
    (by
      intro a' ha'
      obtain ⟨a, ha, rfl⟩ := List.mem_map.mp ha'
      rw [harT]
      exact h4 a ha)
    (by
      intro b' hb'
      obtain ⟨b, hb, rfl⟩ := List.mem_map.mp hb'
      rw [hmaT]
      exact h5 b hb)
  refine ⟨tx, ?_, hplen⟩
  rw [batch_trans, hu, exceptBind_ok]
  exact hp

/-! ### Differencing lemmas -/

theorem cumsumFrom_sub : ∀ (ys : List ℚ) (prev : ℚ),
    cumsumFrom prev (List.zipWith (· - ·) ys (prev :: ys)) = ys := by
  intro ys
  induction ys with
  | nil => intro prev; rfl
  | cons y ys ih =>
    intro prev
    show cumsumFrom prev ((y - prev) :: List.zipWith (· - ·) ys (y :: ys)) = y :: ys
    rw [cumsumFrom]
    rw [show prev + (y - prev) = y by ring]
    exact congrArg (y :: ·) (ih y)

/-! ### Generic fold/list helpers -/

theorem foldl_invariant {α β : Type} (P : α → Prop) (f : α → β → α) :
    ∀ (l : List β) (init : α), P init → (∀ a b, b ∈ l → P a → P (f a b)) →
    P (l.foldl f init) := by
  intro l
  induction l with
  | nil => intro init h _; exact h
  | cons b bs ih =>
    intro init h hstep
    exact ih (f init b) (hstep init b (List.mem_cons_self b bs) h)
      (fun a b' hb' ha => hstep a b' (List.mem_cons_of_mem _ hb') ha)

theorem getD_set_neq {α : Type} (l : List α) (i j : ℕ) (v d : α) (h : j ≠ i) :
    (l.set j v).getD i d = l.getD i d := by
  rw [List.getD_eq_getElem?_getD, List.getD_eq_getElem?_getD, List.getElem?_set_ne h]

theorem getD_replicate' {α : Type} (n i : ℕ) (a d : α) (h : i < n) :
    (List.replicate n a).getD i d = a := by
  rw [List.getD_eq_getElem?_getD, List.getElem?_replicate, if_pos h]; rfl

/-! ### `run_kalman` case lemmas -/

theorem isErr_map {ε α β : Type} (e : Except ε α) (f : α → β) :
    isErr (e.map f) = isErr e := by
  cases e <;> rfl

theorem isEmpty_false_of_ne_nil {α : Type} {l : List α} (h : l ≠ []) :
    l.isEmpty = false := by
  cases l with
  | nil => exact absurd rfl h
  | cons a as => rfl

theorem same_d_eq_true_iff (O : List (ℕ × ℕ × ℕ)) :
    same_d O = true ↔ ∀ o ∈ O, o.2.1 = (O.headD (0, 0, 0)).2.1 := by
  simp [same_d, List.all_eq_true]

theorem run_kalman_same_d_false (kernel : KalmanKernel) (model : ARIMAModel)
    (hne : model.order ≠ []) (hsd : same_d model.order = false) :
    run_kalman kernel model = .error "AssertionError: same d" := by
  unfold run_kalman
  rw [if_neg (by simp [isEmpty_false_of_ne_nil hne]), if_neg (by simp [hsd])]

theorem run_kalman_d0 (kernel : KalmanKernel) (model : ARIMAModel)
    (hne : model.order ≠ []) (hsd : same_d model.order = true)
    (hd : (model.order.headD (0, 0, 0)).2.1 = 0) :
    run_kalman kernel model = .ok (kernel model.ar_params model.ma_params model.y) := by
  unfold run_kalman
  rw [if_neg (by simp [isEmpty_false_of_ne_nil hne]), if_pos hsd, hd]

theorem run_kalman_d1 (kernel : KalmanKernel) (model : ARIMAModel)
    (hne : model.order ≠ []) (hsd : same_d model.order = true)
    (hd : (model.order.headD (0, 0, 0)).2.1 = 1) :
    run_kalman kernel model = .ok (kernel model.ar_params model.ma_params
      (diffAndCenter model.y model.num_batches model.mu model.ar_params)) := by
  unfold run_kalman
  rw [if_neg (by simp [isEmpty_false_of_ne_nil hne]), if_pos hsd, hd]

theorem run_kalman_d_unsupported (kernel : KalmanKernel) (model : ARIMAModel)
    (hne : model.order ≠ []) (hsd : same_d model.order = true)
    (hd : 2 ≤ (model.order.headD (0, 0, 0)).2.1) :
    run_kalman kernel model = .error "NotImplementedError: ARIMA only support d==0,1" := by
  unfold run_kalman
  rw [if_neg (by simp [isEmpty_false_of_ne_nil hne]), if_pos hsd]
  obtain ⟨k, hk⟩ : ∃ k, (model.order.headD (0, 0, 0)).2.1 = k + 2 :=
    ⟨(model.order.headD (0, 0, 0)).2.1 - 2, by omega⟩
  rw [hk]
  rfl

theorem run_kalman_ok_inv (kernel : KalmanKernel) (model : ARIMAModel)
    (r : List ℚ × List (List ℚ)) (h : run_kalman kernel model = .ok r) :
    model.order ≠ [] ∧ same_d model.order = true ∧
    ((model.order.headD (0, 0, 0)).2.1 = 0 ∨ (model.order.headD (0, 0, 0)).2.1 = 1) := by
  unfold run_kalman at h
  by_cases he : model.order.isEmpty = true
  · rw [if_pos he] at h; simp at h
  · rw [if_neg he] at h
    by_cases hsd : same_d model.order = true
    · rw [if_pos hsd] at h
      refine ⟨by simpa [List.isEmpty_iff] using he, hsd, ?_⟩
      rcases hd : (model.order.headD (0, 0, 0)).2.1 with _ | (_ | k)
      · exact Or.inl rfl
      · exact Or.inr rfl
      · rw [hd] at h; simp at h
    · rw [if_neg hsd] at h; simp at h

/-! ### Fault-mode trace lemmas -/

theorem ll_fTrace_true_all (nb : ℕ) (m : FpMode) :
    (ll_fTrace true nb m).1.all modeOk = true ∧ (ll_fTrace true nb m).2 = .permissive := by
  refine ⟨?_, rfl⟩
  rw [List.all_eq_true]
  intro ev hev
  rcases List.mem_append.mp hev with hl | hr
  · rw [List.eq_of_mem_replicate hl]; rfl
  · rcases List.mem_singleton.mp hr with rfl; rfl

theorem ll_gfTrace_all (num_parameters nb : ℕ) (m : FpMode) :
    ((ll_gfTrace num_parameters nb true m).1.all modeOk = true) := by
  have := foldl_invariant (fun acc : List FpEvent × FpMode => acc.1.all modeOk = true)
    (fun acc _ =>
      let r1 := ll_fTrace true nb acc.2
      let r2 := ll_fTrace true nb r1.2
      (acc.1 ++ r1.1 ++ r2.1 ++ [FpEvent.centralDiff .strict], FpMode.strict))
    (List.range num_parameters) ([], m) rfl ?_
  · exact this
  · intro acc _ _ hacc
    simp only [List.all_append, Bool.and_eq_true]
    exact ⟨⟨⟨hacc, (ll_fTrace_true_all nb acc.2).1⟩, (ll_fTrace_true_all nb _).1⟩, rfl⟩

theorem batch_invtransTrace_strict_all (nb : ℕ) :
    (batch_invtransTrace nb .strict).1.all modeOk = true := by
  rw [List.all_eq_true]
  intro ev hev
  rw [List.eq_of_mem_replicate hev]; rfl

theorem batch_transTrace_all (nb : ℕ) (m : FpMode) :
    (batch_transTrace nb m).1.all modeOk = true := by
  rw [List.all_eq_true]
  intro ev hev
  rw [List.eq_of_mem_replicate hev]; rfl

/-! ### Gradient scatter lemmas -/

theorem getD_replicate_zero (n j : ℕ) : (List.replicate n (0 : ℚ)).getD j 0 = 0 := by
  by_cases hj : j < n
  · exact getD_replicate' n j 0 0 hj
  · rw [List.getD_eq_getElem?_getD, List.getElem?_replicate, if_neg hj]; rfl

theorem getD_set_self {α : Type} (l : List α) (j : ℕ) (v d : α) (h : j < l.length) :
    (l.set j v).getD j d = v := by
  rw [List.getD_eq_getElem?_getD, List.getElem?_set_self (by simpa using h)]; rfl

theorem range_map_getD (n j : ℕ) (fn : ℕ → ℚ) (hj : j < n) :
    ((List.range n).map fn).getD j 0 = fn j := by
  rw [List.getD_eq_getElem?_getD, List.getElem?_map, List.getElem?_range hj]; rfl

theorem range_map_getD_ge (n j : ℕ) (fn : ℕ → ℚ) (hj : ¬ j < n) :
    ((List.range n).map fn).getD j 0 = 0 := by
  rw [List.getD_eq_getElem?_getD, List.getElem?_map,
      List.getElem?_eq_none (by simpa using hj), Option.map_none']
  rfl

theorem tile_getD (l : List ℚ) :
    ∀ (n j : ℕ), j < n * l.length → (tile l n).getD j 0 = l.getD (j % l.length) 0 := by
  intro n
  induction n with
  | zero => intro j hj; omega
  | succ m ih =>
    intro j hj
    rw [Nat.succ_mul] at hj
    have htile : tile l (m + 1) = l ++ tile l m := rfl
    rw [htile]
    by_cases hjl : j < l.length
    · rw [List.getD_append _ _ _ _ hjl, Nat.mod_eq_of_lt hjl]
    · have hl : l.length ≤ j := Nat.le_of_not_lt hjl
      rw [List.getD_append_right _ _ _ _ hl]
      have hlen0 : 0 < l.length := by
        rcases Nat.eq_zero_or_pos l.length with h0 | h0
        · rw [h0] at hj; omega
        · exact h0
      rw [ih (j - l.length) (by omega)]
      rw [Nat.mod_eq_sub_mod hl]

theorem perturb_getD (np' nb : ℕ) (h : ℚ) (i j : ℕ) (hi : i < np') (hj : j < np' * nb) :
    (perturb np' nb h i).getD j 0 = if j % np' = i then h else 0 := by
  unfold perturb
  have hlen : ((List.replicate np' 0).set i h).length = np' := by simp
  rw [tile_getD _ nb j (by rw [hlen, Nat.mul_comm]; exact hj), hlen]
  have hmod : j % np' < np' := Nat.mod_lt _ (by omega)
  by_cases hji : j % np' = i
  · rw [if_pos hji, hji, getD_set_self _ _ _ _ (by simp [hi])]
  · rw [if_neg hji, getD_set_neq (List.replicate np' (0 : ℚ)) (j % np') i h 0 (Ne.symm hji),
        getD_replicate' _ _ _ _ hmod]

theorem zipSub_map_getD :
    ∀ (a b : List ℚ) (c : ℚ) (k : ℕ), k < a.length → k < b.length →
    ((List.zipWith (· - ·) a b).map (· / c)).getD k 0 = (a.getD k 0 - b.getD k 0) / c := by
  intro a
  induction a with
  | nil => intro b c k hka _; simp at hka
  | cons x xs ih =>
    intro b c k hka hkb
    cases b with
    | nil => simp at hkb
    | cons y ys =>
      cases k with
      | zero => rfl
      | succ m =>
        exact ih ys c m (by simpa using hka) (by simpa using hkb)

theorem setStrided_length (g : List ℚ) (s t : ℕ) (vals : List ℚ) :
    (setStrided g s t vals).length = g.length := by
  simp [setStrided]

theorem setStrided_getD_hit (g : List ℚ) (s t : ℕ) (vals : List ℚ) (k : ℕ)
    (ht : 0 < t) (hk : k < vals.length) (hin : s + k * t < g.length) :
    (setStrided g s t vals).getD (s + k * t) 0 = vals.getD k 0 := by
  unfold setStrided
  rw [range_map_getD _ _ _ hin]
  rw [if_pos]
  · congr 1
    rw [Nat.add_sub_cancel_left, Nat.mul_div_cancel k ht]
  · refine ⟨Nat.le_add_right s _, ?_, ?_⟩
    · rw [Nat.add_sub_cancel_left, Nat.mul_mod_left]
    · rw [Nat.add_sub_cancel_left, Nat.mul_div_cancel k ht]
      exact hk

theorem setStrided_getD_miss (g : List ℚ) (s t : ℕ) (vals : List ℚ) (j : ℕ)
    (hm : ¬(s ≤ j ∧ (j - s) % t = 0 ∧ (j - s) / t < vals.length)) :
    (setStrided g s t vals).getD j 0 = g.getD j 0 := by
  by_cases hj : j < g.length
  · unfold setStrided
    rw [range_map_getD _ _ _ hj, if_neg hm]
  · unfold setStrided
    rw [range_map_getD_ge _ _ _ hj, List.getD_eq_getElem?_getD,
        List.getElem?_eq_none (by omega), Option.getD_none]

/-- Residues separate the strided slot sets: if `i ≠ m` (both `< np'`) then
slot `i + k*np'` is never of the form `m + c*np'`. -/
theorem slot_ne (np' i m k c : ℕ) (hi : i < np') (hm : m < np') (hne : i ≠ m) :
    i + k * np' ≠ m + c * np' := by
  intro heq
  have h1 : (i + k * np') % np' = i % np' := Nat.add_mul_mod_self_right i k np'
  have h2 : (m + c * np') % np' = m % np' := Nat.add_mul_mod_self_right m c np'
  rw [heq, h2] at h1
  rw [Nat.mod_eq_of_lt hm, Nat.mod_eq_of_lt hi] at h1
  exact hne h1.symm

theorem gradStep_length (f : List ℚ → List ℚ) (nb np' : ℕ) (x : List ℚ) (h : ℚ)
    (g : List ℚ) (i : ℕ) : (gradStep f nb np' x h g i).length = g.length := by
  unfold gradStep
  by_cases h1 : nb = 1
  · simp [h1]
  · simp [h1, setStrided_length]

theorem grad_i_b_length (f : List ℚ → List ℚ) (nb : ℕ) (hf : ∀ z, (f z).length = nb)
    (a b : List ℚ) (c : ℚ) :
    ((List.zipWith (· - ·) (f a) (f b)).map (· / c)).length = nb := by
  simp [hf]

theorem gradStep_getD_hit (f : List ℚ → List ℚ) (nb np' : ℕ) (x : List ℚ) (h : ℚ)
    (g : List ℚ) (i k : ℕ) (hg : g.length = np' * nb)
    (hf : ∀ z, (f z).length = nb) (hi : i < np') (hk : k < nb) :
    (gradStep f nb np' x h g i).getD (i + k * np') 0 =
      ((f (vadd x (perturb np' nb h i))).getD k 0
        - (f (vsub x (perturb np' nb h i))).getD k 0) / (2 * h) := by
  unfold gradStep
  by_cases h1 : nb = 1
  · subst h1
    have hk0 : k = 0 := by omega
    subst hk0
    simp only [eq_self_iff_true, if_true, Nat.zero_mul, Nat.add_zero]
    rw [getD_set_self _ _ _ _ (by rw [hg]; omega)]
    exact zipSub_map_getD _ _ _ 0 (by rw [hf]; omega) (by rw [hf]; omega)
  · rw [if_neg h1]
    have hslot : i + k * np' < g.length := by
      have h2 : i + k * np' < (k + 1) * np' := by rw [Nat.succ_mul]; omega
      have h3 : (k + 1) * np' ≤ nb * np' := Nat.mul_le_mul_right np' hk
      have h4 : nb * np' = np' * nb := Nat.mul_comm _ _
      omega
    rw [setStrided_getD_hit g i np' _ k (by omega)
      (by rw [grad_i_b_length f nb hf]; exact hk) hslot]
    exact zipSub_map_getD _ _ _ k (by rw [hf]; exact hk) (by rw [hf]; exact hk)

theorem gradStep_getD_miss (f : List ℚ → List ℚ) (nb np' : ℕ) (x : List ℚ) (h : ℚ)
    (g : List ℚ) (i m k : ℕ) (hi : i < np') (hm : m < np') (hne : i ≠ m) (hk : k < nb) :
    (gradStep f nb np' x h g m).getD (i + k * np') 0 = g.getD (i + k * np') 0 := by
  unfold gradStep
  by_cases h1 : nb = 1
  · subst h1
    have hk0 : k = 0 := by omega
    subst hk0
    simp only [eq_self_iff_true, if_true, Nat.zero_mul, Nat.add_zero]
    exact getD_set_neq g i m _ 0 (Ne.symm hne)
  · rw [if_neg h1]
    apply setStrided_getD_miss
    rintro ⟨hle, hmod, -⟩
    obtain ⟨c, hc⟩ := Nat.dvd_of_mod_eq_zero hmod
    have hc' : i + k * np' - m = c * np' := by rw [hc, Nat.mul_comm]
    exact slot_ne np' i m k c hi hm hne (by omega)

theorem ll_gf_partial (f : List ℚ → List ℚ) (nb np' : ℕ) (x : List ℚ) (h : ℚ)
    (hx : x.length = np' * nb) (hf : ∀ z, (f z).length = nb) :
    ∀ m, m ≤ np' →
    ((List.range m).foldl (gradStep f nb np' x h) (List.replicate x.length 0)).length
      = np' * nb
    ∧ ∀ i k, i < np' → k < nb →
      ((List.range m).foldl (gradStep f nb np' x h)
        (List.replicate x.length 0)).getD (i + k * np') 0 =
        if i < m then
          ((f (vadd x (perturb np' nb h i))).getD k 0
            - (f (vsub x (perturb np' nb h i))).getD k 0) / (2 * h)
        else 0 := by
  intro m
  induction m with
  | zero =>
    intro _
    constructor
    · simpa using hx
    · intro i k _ _
      rw [if_neg (by omega)]
      exact getD_replicate_zero _ _
  | succ n ih =>
    intro hmn
    obtain ⟨ihlen, ihval⟩ := ih (by omega)
    rw [List.range_succ, List.foldl_append, List.foldl_cons, List.foldl_nil]
    constructor
    · rw [gradStep_length]
      exact ihlen
    · intro i k hi hk
      by_cases hin : i = n
      · subst hin
        rw [if_pos (by omega)]
        exact gradStep_getD_hit f nb np' x h _ i k ihlen hf hi hk
      · rw [gradStep_getD_miss f nb np' x h _ i n k hi (by omega) hin hk]
        rw [ihval i k hi hk]
        by_cases hi' : i < n
        · rw [if_pos hi', if_pos (by omega)]
        · rw [if_neg hi', if_neg (by omega)]

/-! ### Forecast-generator lemmas -/

theorem lastN_length (n : ℕ) (l : List ℚ) (h : n ≤ l.length) :
    (lastN n l).length = n := by
  rw [lastN, List.length_drop]
  omega

theorem dotq_replicate_zero : ∀ (a : List ℚ) (m : ℕ),
    dotq a (List.replicate m 0) = 0 := by
  intro a
  induction a with
  | nil => intro m; rfl
  | cons x xs ih =>
    intro m
    cases m with
    | zero => rfl
    | succ k =>
      show (List.zipWith (· * ·) (x :: xs) (0 :: List.replicate k 0)).sum = 0
      rw [List.zipWith_cons_cons, List.sum_cons, mul_zero, zero_add]
      exact ih k

theorem dotq_append_zero : ∀ (a w : List ℚ) (m : ℕ),
    dotq a (w ++ List.replicate m 0) = dotq a w := by
  intro a
  induction a with
  | nil => intro w m; rfl
  | cons x xs ih =>
    intro w m
    cases w with
    | nil =>
      rw [List.nil_append]
      rw [dotq_replicate_zero]
      rfl
    | cons y ys =>
      show (List.zipWith (· * ·) (x :: xs) (y :: (ys ++ List.replicate m 0))).sum
        = (List.zipWith (· * ·) (x :: xs) (y :: ys)).sum
      rw [List.zipWith_cons_cons, List.zipWith_cons_cons, List.sum_cons, List.sum_cons]
      rw [show (List.zipWith (· * ·) xs (ys ++ List.replicate m 0)).sum = dotq xs (ys ++ List.replicate m 0) from rfl,
          show (List.zipWith (· * ·) xs ys).sum = dotq xs ys from rfl, ih ys m]

theorem window_of_take_eq (l₁ l₂ : List ℚ) (m i w : ℕ)
    (h : l₁.take m = l₂.take m) (hm : i + w ≤ m) :
    (l₁.drop i).take w = (l₂.drop i).take w := by
  have e1 : (l₁.drop i).take w = ((l₁.take (i + w)).drop i) := by
    rw [List.drop_take, Nat.add_sub_cancel_left]
  have e2 : (l₂.drop i).take w = ((l₂.take (i + w)).drop i) := by
    rw [List.drop_take, Nat.add_sub_cancel_left]
  rw [e1, e2]
  have h1 : l₁.take (i + w) = l₂.take (i + w) := by
    have := congrArg (List.take (i + w)) h
    rwa [List.take_take, List.take_take, Nat.min_eq_left hm] at this
  rw [h1]

theorem fcRun_length (p q : ℕ) (mu : ℚ) (ar ma b v : List ℚ) :
    ∀ k, (fcRun p q mu ar ma b v k).1.length = k := by
  intro k
  induction k with
  | zero => rfl
  | succ n ih =>
    show ((fcRun p q mu ar ma b v n).1 ++ [_]).length = n + 1
    rw [List.length_append, ih]
    rfl

theorem fcRun_take (p q : ℕ) (mu : ℚ) (ar ma b v : List ℚ) :
    ∀ n k, k ≤ n → (fcRun p q mu ar ma b v n).1.take k = (fcRun p q mu ar ma b v k).1 := by
  intro n
  induction n with
  | zero =>
    intro k hk
    rw [Nat.le_zero.mp hk]
    rfl
  | succ m ih =>
    intro k hk
    rcases Nat.lt_or_ge k (m + 1) with hlt | hge
    · show ((fcRun p q mu ar ma b v m).1 ++ [_]).take k = _
      rw [List.take_append_of_le_length (by rw [fcRun_length]; omega)]
      exact ih k (by omega)
    · have hk1 : k = m + 1 := by omega
      subst hk1
      exact List.take_of_length_le (by rw [fcRun_length])

theorem fcRun_buf (p q : ℕ) (mu : ℚ) (ar ma hist v : List ℚ) (N : ℕ)
    (hp : 0 < p) (hh : hist.length = p) :
    ∀ k, k ≤ N →
      (fcRun p q mu ar ma (hist ++ List.replicate N 0) v k).2 =
        hist ++ (fcRun p q mu ar ma (hist ++ List.replicate N 0) v k).1
          ++ List.replicate (N - k) 0 := by
  intro k
  induction k with
  | zero =>
    intro _
    show hist ++ List.replicate N 0 = hist ++ [] ++ List.replicate (N - 0) 0
    rw [List.append_nil, Nat.sub_zero]
  | succ n ih =>
    intro hn
    have hrec := ih (by omega)
    show (if 0 < p then
        (fcRun p q mu ar ma (hist ++ List.replicate N 0) v n).2.set (n + p)
          (fcStep p q mu ar ma v n (fcRun p q mu ar ma (hist ++ List.replicate N 0) v n).2)
      else (fcRun p q mu ar ma (hist ++ List.replicate N 0) v n).2) = _
    rw [if_pos hp]
    set val := fcStep p q mu ar ma v n (fcRun p q mu ar ma (hist ++ List.replicate N 0) v n).2
      with hval
    have hlen1 : (hist ++ (fcRun p q mu ar ma (hist ++ List.replicate N 0) v n).1).length
        = p + n := by
      rw [List.length_append, hh, fcRun_length]
    rw [hrec]
    rw [List.set_append, if_neg (by rw [hlen1]; omega), hlen1,
        show n + p - (p + n) = 0 by omega]
    have hrepl : (List.replicate (N - n) (0 : ℚ)).set 0 val
        = val :: List.replicate (N - (n + 1)) 0 := by
      rw [show N - n = (N - (n + 1)) + 1 by omega, List.replicate_succ]
      rfl
    rw [hrepl]
    rw [show ((fcRun p q mu ar ma (hist ++ List.replicate N 0) v (n + 1)).1 : List ℚ)
        = (fcRun p q mu ar ma (hist ++ List.replicate N 0) v n).1 ++ [val] from rfl]
    simp [List.append_assoc]

theorem fcRun_getD (p q : ℕ) (mu : ℚ) (ar ma b v : List ℚ) (n i : ℕ) (hi : i < n) :
    (fcRun p q mu ar ma b v n).1.getD i 0 =
      fcStep p q mu ar ma v i (fcRun p q mu ar ma b v i).2 := by
  have h1 : (fcRun p q mu ar ma b v n).1.take (i + 1) = (fcRun p q mu ar ma b v (i + 1)).1 :=
    fcRun_take p q mu ar ma b v n (i + 1) (by omega)
  have h2 : (fcRun p q mu ar ma b v n).1.getD i 0
      = ((fcRun p q mu ar ma b v n).1.take (i + 1)).getD i 0 := by
    rw [List.getD_eq_getElem?_getD, List.getD_eq_getElem?_getD, List.getElem?_take,
        if_pos (by omega)]
  rw [h2, h1]
  show ((fcRun p q mu ar ma b v i).1 ++ [_]).getD i 0 = _
  rw [List.getD_append_right _ _ _ _ (by rw [fcRun_length]), fcRun_length,
      show i - i = 0 by omega]
  rfl

theorem fcRun_const (mu : ℚ) (b v : List ℚ) :
    ∀ n, (fcRun 0 0 mu [] [] b v n).1 = List.replicate n mu := by
  intro n
  induction n with
  | zero => rfl
  | succ k ih =>
    show (fcRun 0 0 mu [] [] b v k).1 ++ [fcStep 0 0 mu [] [] v k _] = _
    have hstep : ∀ (buf : List ℚ), fcStep 0 0 mu [] [] v k buf = mu := by
      intro buf
      show mu * (1 - ([] : List ℚ).sum) + (if 0 < 0 then _ else 0)
        + (if 0 < 0 ∧ k < 0 then _ else 0) = mu
      norm_num
    rw [ih, hstep, List.replicate_succ']

/-! ## Claim theorems -/


/-- **C1**: for every `p ≥ 0`, `q ≥ 0`, batch size `nb ≥ 1`, and per-member
values `mu` (length `nb`), `ar` (`nb` vectors of length `p`), `ma` (`nb`
vectors of length `q`), `unpack(p, q, nb, pack(p, q, nb, mu, ar, ma))`
returns exactly `(mu, ar, ma)`: the codec round-trip is the identity. -/
theorem C1_codec_roundtrip (p q nb : ℕ) (mu : List ℚ) (ar ma : List (List ℚ))
    (_hnb : 1 ≤ nb) (hmu : mu.length = nb) (har : ar.length = nb)
    (hma : ma.length = nb) (hap : ∀ a ∈ ar, a.length = p)
    (hbq : ∀ b ∈ ma, b.length = q) :
    (pack p q nb mu ar ma).bind (unpack p q nb) = .ok (mu, ar, ma) :=
  unpack_pack p q nb mu ar ma hmu har hma hap hbq

theorem C1_codec_roundtrip_witness :
    (pack 1 1 2 [1, 2] [[3], [4]] [[5], [6]]).bind (unpack 1 1 2)
      = .ok ([1, 2], [[3], [4]], [[5], [6]]) :=
  C1_codec_roundtrip 1 1 2 [1, 2] [[3], [4]] [[5], [6]]
    (by decide) rfl rfl rfl (by decide) (by decide)

/-- **C8** counterexample: `unpack(1, 0, 2, x)` with `len x = 3 ≠
2*(1+1+0) = 4` does *not* fail with an index error — numpy slices clamp, so
it silently returns truncated member data.  (And `pack` takes no flat
vector `x` at all, so it cannot fail on the length of one.) -/
theorem C8_counterexample :
    (unpack 1 0 2 [1, 2, 3]).toOption = some ([1, 3], [[2], []], [[], []])
    ∧ (3 : ℕ) ≠ 2 * (1 + 1 + 0) := by decide

/-- **C8 (amended)**: `unpack` fails with an index error exactly when `x`
is too short to give every member a non-empty block, i.e. when
`len x ≤ (nb-1)*(1+p+q)` (for `nb ≥ 1`); every longer `x`, whether or not
its length is `nb*(1+p+q)`, is accepted silently with clamped slices.
`pack` takes no flat input vector; given `nb` members of shapes
`(1, p, q)` it always succeeds and produces the vector of length
`nb*(1+p+q)`. -/
theorem C8_amended :
    (∀ (p q nb : ℕ) (x : List ℚ), 1 ≤ nb →
      (isErr (unpack p q nb x) = true ↔ x.length ≤ (nb - 1) * (1 + p + q)))
    ∧ (∀ (p q nb : ℕ) (mu : List ℚ) (ar ma : List (List ℚ)),
      mu.length = nb → ar.length = nb → ma.length = nb →
      (∀ a ∈ ar, a.length = p) → (∀ b ∈ ma, b.length = q) →
      ∃ x, pack p q nb mu ar ma = .ok x ∧ x.length = nb * (1 + p + q)) :=
  ⟨fun p q nb x h => unpack_isErr_iff p q nb x h,
   fun p q nb mu ar ma hmu har hma hap hbq => pack_ok p q nb mu ar ma hmu har hma hap hbq⟩

theorem C8_amended_witness :
    isErr (unpack 1 0 2 [1, 2]) = true ∧ isErr (unpack 1 0 2 [1, 2, 3]) = false := by
  constructor
  · exact (C8_amended.1 1 0 2 [1, 2] (by decide)).mpr (by decide)
  · cases hE : isErr (unpack 1 0 2 [1, 2, 3]) with
    | false => rfl
    | true => exact absurd ((C8_amended.1 1 0 2 [1, 2, 3] (by decide)).mp hE) (by decide)

/-- **C4** counterexample: with `difference = np.diff` (the only
differencing operation in the source), `undifference(difference(y)[1:],
y[0])` does *not* reconstruct `y`: at `y = [0, 1, 3]` it yields `[0, 2]`.
Moreover `undifference` does not discard the first (seed) element of its
return value — `undifference([2], 0) = [0, 2]` retains the seed `0`; the
discarding `[1:]` is performed by the caller in `forecast` (line 335). -/
theorem C4_counterexample :
    undifference ((npdiff [0, 1, 3]).drop 1) 0 ≠ [0, 1, 3]
    ∧ undifference [2] 0 = [0, 2] := by
  norm_num [undifference, cumsum, cumsumFrom, npdiff]

/-- **C4 (amended)**: `undifference(forecast_values, last_observed_value)`
prepends `last_observed_value` and takes a running cumulative sum, returning
the seed as its first element (the caller in `forecast` drops it with
`[1:]`); consequently `undifference(difference(y), y[0])` reconstructs `y`
exactly for every non-empty series `y`, making the `np.diff`/`undifference`
pair a true inverse. -/
theorem C4_amended (y : List ℚ) (hy : y ≠ []) :
    undifference (npdiff y) (y.headD 0) = y := by
  match y with
  | [] => exact absurd rfl hy
  | y0 :: rest =>
    show cumsumFrom 0 (y0 :: List.zipWith (· - ·) rest (y0 :: rest)) = y0 :: rest
    rw [cumsumFrom, zero_add]
    exact congrArg (y0 :: ·) (cumsumFrom_sub rest y0)

theorem C4_amended_witness :
    undifference (npdiff [0, 1, 3]) (([0, 1, 3] : List ℚ).headD 0) = [0, 1, 3] :=
  C4_amended [0, 1, 3] (by decide)

/-- **C7** counterexample: in a `fit` run in which the optimizer makes a
single objective call, a Kalman likelihood evaluation (part of the
optimization work) runs in *permissive* mode, and the stationarity
transform's internal calls run in *strict* mode (never permissive) — the
opposite of the claimed discipline.  `batch_trans` enables strict trapping
*before* its internal statsmodels calls and reverts to permissive *after*
them, so everything that follows (including the Kalman kernel in `ll_f`)
runs permissive until some later `np.seterr(all='raise')`. -/
theorem C7_counterexample :
    FpEvent.kalmanEval .permissive ∈ (fitTrace [true] 1 1).1
    ∧ FpEvent.transCall .strict ∈ (fitTrace [true] 1 1).1
    ∧ FpEvent.transCall .permissive ∉ (fitTrace [true] 1 1).1 := by decide

/-- **C7 (amended)**: throughout a call to `fit` — for every pattern of
objective/gradient invocations by the external optimizer — strict
floating-point-exception trapping is in effect during the inverse
transform at entry, during every stationarity-transform internal call, and
during every central-difference computation of the gradient, while every
Kalman likelihood evaluation issued by the objective runs in permissive
(warn-only) mode, because `batch_trans` reverts the global mode to
permissive at the end of each forward transform. -/
theorem C7_amended (optCalls : List Bool) (num_parameters nb : ℕ) :
    (fitTrace optCalls num_parameters nb).1.all modeOk = true := by
  unfold fitTrace
  simp only [List.all_append, Bool.and_eq_true]
  constructor
  · have := foldl_invariant (fun acc : List FpEvent × FpMode => acc.1.all modeOk = true)
      (fun acc c =>
        let r := if c then ll_fTrace true nb acc.2
                 else ll_gfTrace num_parameters nb true acc.2
        (acc.1 ++ r.1, r.2))
      optCalls (batch_invtransTrace nb .strict) (batch_invtransTrace_strict_all nb) ?_
    · exact this
    · intro acc c _ hacc
      simp only [List.all_append, Bool.and_eq_true]
      refine ⟨hacc, ?_⟩
      cases c
      · simpa using ll_gfTrace_all num_parameters nb acc.2
      · simpa using (ll_fTrace_true_all nb acc.2).1
  · exact batch_transTrace_all nb _

/-- **C10**: `grid_search` compares each candidate's information criterion
to the running best with a strict `<` against an initial best of
`finfo(float64).max / 2`; a batch member for which no candidate's score is
strictly below that initial bound (e.g. when every candidate's score is
NaN, since `NaN < x` is false) keeps the initial placeholder in the
returned best model: an empty order list, mean `0`, empty AR/MA
coefficient lists (and its `best_ic` entry still `finfo(float64).max / 2`). -/
theorem C10_placeholder_retention (nb max_p max_q d i : ℕ)
    (score : ℕ → ℕ → List F)
    (cand : ℕ → ℕ → List ℚ × List (List ℚ) × List (List ℚ))
    (hi : i < nb)
    (hfail : ∀ p < max_p, ∀ q < max_q, ¬(p = 0 ∧ q = 0) →
      Flt ((score p q).getD i .nan) float64MaxHalf = false) :
    (grid_search nb max_p max_q d score cand).orders.getD i [1, 1, 1] = []
    ∧ (grid_search nb max_p max_q d score cand).mu.getD i 1 = 0
    ∧ (grid_search nb max_p max_q d score cand).ar.getD i [1] = []
    ∧ (grid_search nb max_p max_q d score cand).ma.getD i [1] = []
    ∧ (grid_search nb max_p max_q d score cand).ic.getD i .nan = float64MaxHalf := by
  have main : ∀ (p q : ℕ), p < max_p → q < max_q → ¬(p = 0 ∧ q = 0) →
      ∀ st : GridState,
      (st.orders.getD i [1, 1, 1] = [] ∧ st.mu.getD i 1 = 0
       ∧ st.ar.getD i [1] = [] ∧ st.ma.getD i [1] = []
       ∧ st.ic.getD i .nan = float64MaxHalf) →
      ((gsUpdate [p, d, q] (score p q) (cand p q).1 (cand p q).2.1 (cand p q).2.2 st).orders.getD i [1, 1, 1] = []
       ∧ (gsUpdate [p, d, q] (score p q) (cand p q).1 (cand p q).2.1 (cand p q).2.2 st).mu.getD i 1 = 0
       ∧ (gsUpdate [p, d, q] (score p q) (cand p q).1 (cand p q).2.1 (cand p q).2.2 st).ar.getD i [1] = []
       ∧ (gsUpdate [p, d, q] (score p q) (cand p q).1 (cand p q).2.1 (cand p q).2.2 st).ma.getD i [1] = []
       ∧ (gsUpdate [p, d, q] (score p q) (cand p q).1 (cand p q).2.1 (cand p q).2.2 st).ic.getD i .nan = float64MaxHalf) := by
    intro p q hp hq hpq st hst
    unfold gsUpdate
    refine foldl_invariant
      (fun st : GridState => st.orders.getD i [1, 1, 1] = [] ∧ st.mu.getD i 1 = 0
        ∧ st.ar.getD i [1] = [] ∧ st.ma.getD i [1] = []
        ∧ st.ic.getD i .nan = float64MaxHalf)
      _ (List.range (score p q).length) st hst ?_
    intro a j _ ha
    by_cases hji : j = i
    · subst hji
      have hic : a.ic.getD j float64MaxHalf = float64MaxHalf := by
        have hv := ha.2.2.2.2
        rw [List.getD_eq_getElem?_getD] at hv
        rw [List.getD_eq_getElem?_getD]
        rcases h : a.ic[j]? with _ | v
        · rw [h] at hv
          exact absurd (by simpa using hv) (by decide : ¬(F.nan = float64MaxHalf))
        · rw [h] at hv
          simpa using hv
      simp only [hic, hfail p hp q hq hpq, Bool.false_eq_true, if_false]
      exact ha
    · by_cases hflt : Flt ((score p q).getD j .nan) (a.ic.getD j float64MaxHalf) = true
      · rw [if_pos hflt]
        exact ⟨(getD_set_neq a.orders i j _ _ hji).trans ha.1,
               (getD_set_neq a.mu i j _ _ hji).trans ha.2.1,
               (getD_set_neq a.ar i j _ _ hji).trans ha.2.2.1,
               (getD_set_neq a.ma i j _ _ hji).trans ha.2.2.2.1,
               (getD_set_neq a.ic i j _ _ hji).trans ha.2.2.2.2⟩
      · rw [if_neg hflt]; exact ha
  unfold grid_search
  refine foldl_invariant
    (fun st : GridState => st.orders.getD i [1, 1, 1] = [] ∧ st.mu.getD i 1 = 0
      ∧ st.ar.getD i [1] = [] ∧ st.ma.getD i [1] = []
      ∧ st.ic.getD i .nan = float64MaxHalf)
    _ (List.range max_p) (gridInit nb)
    ⟨getD_replicate' nb i [] [1, 1, 1] hi, getD_replicate' nb i 0 1 hi,
     getD_replicate' nb i [] [1] hi, getD_replicate' nb i [] [1] hi,
     getD_replicate' nb i float64MaxHalf .nan hi⟩ ?_
  intro st p hp hst
  refine foldl_invariant
    (fun st : GridState => st.orders.getD i [1, 1, 1] = [] ∧ st.mu.getD i 1 = 0
      ∧ st.ar.getD i [1] = [] ∧ st.ma.getD i [1] = []
      ∧ st.ic.getD i .nan = float64MaxHalf)
    _ (List.range max_q) st hst ?_
  intro st' q hq hst'
  by_cases hpq : p = 0 ∧ q = 0
  · simp only [if_pos hpq]; exact hst'
  · simp only [if_neg hpq]
    exact main p q (List.mem_range.mp hp) (List.mem_range.mp hq) hpq st' hst'

/-- **C2**: for every parameter vector `x` of length
`num_batches * num_parameters` (`num_parameters = 1+p+q`), `ll_gf` perturbs
one scalar position `i` at a time by step `h`, replicating that
single-position perturbation identically across all batch members (the
perturbation vector holds `h` exactly at the positions congruent to `i`
modulo `num_parameters`), evaluates the likelihood at `x+perturbation` and
`x-perturbation`, forms the central difference `(f(x+h)-f(x-h))/(2h)` per
batch member, and writes member `k`'s result into slot
`i + k*num_parameters` of a gradient vector of the same length as `x`; for
distinct parameter indices the written slot sets are disjoint. -/
theorem C2_gradient (f : List ℚ → List ℚ) (num_batches num_parameters : ℕ)
    (x : List ℚ) (h : ℚ) (i k : ℕ)
    (hx : x.length = num_parameters * num_batches)
    (hf : ∀ z, (f z).length = num_batches)
    (hi : i < num_parameters) (hk : k < num_batches) :
    ((ll_gf f num_batches num_parameters x h).getD (i + k * num_parameters) 0 =
      ((f (vadd x (perturb num_parameters num_batches h i))).getD k 0
        - (f (vsub x (perturb num_parameters num_batches h i))).getD k 0) / (2 * h))
    ∧ ((ll_gf f num_batches num_parameters x h).length = x.length)
    ∧ (∀ j, j < num_parameters * num_batches →
        (perturb num_parameters num_batches h i).getD j 0 =
          if j % num_parameters = i then h else 0)
    ∧ (∀ j, j < num_parameters → j ≠ i →
        List.Disjoint (writtenSlots i num_parameters num_batches)
          (writtenSlots j num_parameters num_batches)) := by
  obtain ⟨hlen, hval⟩ :=
    ll_gf_partial f num_batches num_parameters x h hx hf num_parameters le_rfl
  refine ⟨?_, ?_, ?_, ?_⟩
  · rw [show ll_gf f num_batches num_parameters x h =
        (List.range num_parameters).foldl
          (gradStep f num_batches num_parameters x h)
          (List.replicate x.length 0) from rfl,
      hval i k hi hk, if_pos hi]
  · rw [show ll_gf f num_batches num_parameters x h =
        (List.range num_parameters).foldl
          (gradStep f num_batches num_parameters x h)
          (List.replicate x.length 0) from rfl,
      hlen, hx]
  · intro j hj
    exact perturb_getD num_parameters num_batches h i j hi hj
  · intro j hj hji
    intro a ha hb
    simp only [writtenSlots, List.mem_map, List.mem_range] at ha hb
    obtain ⟨c, hc, hca⟩ := ha
    obtain ⟨c', hc', hcb⟩ := hb
    exact slot_ne num_parameters i j c c' hi hj (fun hh => hji hh.symm)
      (hca.symm ▸ hcb.symm)

theorem C2_gradient_witness :
    (ll_gf (fun z => [z.getD 0 0, z.getD 2 0]) 2 2 [1, 2, 3, 4] 1).getD (0 + 1 * 2) 0 =
      (((fun z : List ℚ => [z.getD 0 0, z.getD 2 0])
          (vadd [1, 2, 3, 4] (perturb 2 2 1 0))).getD 1 0
        - ((fun z : List ℚ => [z.getD 0 0, z.getD 2 0])
            (vsub [1, 2, 3, 4] (perturb 2 2 1 0))).getD 1 0) / (2 * 1) :=
  (C2_gradient (fun z => [z.getD 0 0, z.getD 2 0]) 2 2 [1, 2, 3, 4] 1 0 1
    rfl (fun _ => rfl) (by decide) (by decide)).1

/-- **C3**: `fc_single` computes the forecast at step `i` as
`mu*(1 - sum(ar))` plus the dot product of `ar` with the trailing `p`
values — drawn from the last `p` differenced observations and, once the
history window is exhausted, from the previously forecast values — plus
the dot product of `ma` with the trailing `q` innovations, the MA term
contributing only while `i < q`; each new forecast is appended to the AR
working buffer (which is why the AR window below reads from
`lastN p y_diff ++ fc_single ...` itself).  In particular, forecasting a
constant all-mean model (`p = 0`, `q = 0`, `mu = 5`) for 5 steps returns
`[5, 5, 5, 5, 5]` for every batch member, whatever its history and
innovations. -/
theorem C3_fc_single_spec (p d q numSteps : ℕ) (mu : ℚ) (ar ma y_diff vs : List ℚ)
    (har : ar.length = p) (hma : ma.length = q)
    (hyd : p ≤ y_diff.length) (hvs : q ≤ vs.length) :
    (∀ i, i < numSteps →
      (fc_single numSteps (p, d, q) y_diff vs mu ma ar).getD i 0 =
        mu * (1 - ar.sum)
        + dotq ar (((lastN p y_diff
            ++ fc_single numSteps (p, d, q) y_diff vs mu ma ar).drop i).take p)
        + (if i < q then dotq ma ((lastN q vs).drop i) else 0))
    ∧ ∀ (yd' vs' : List ℚ), fc_single 5 (0, 0, 0) yd' vs' 5 [] [] = [5, 5, 5, 5, 5] := by
  constructor
  · intro i hi
    have hifp : (if 0 < p then lastN p y_diff else []) = lastN p y_diff := by
      by_cases hp : 0 < p
      · rw [if_pos hp]
      · rw [if_neg hp]
        have hp0 : p = 0 := by omega
        subst hp0
        rw [lastN, Nat.sub_zero, List.drop_length]
    have hifq : (if 0 < q then lastN q vs else []) = lastN q vs := by
      by_cases hq : 0 < q
      · rw [if_pos hq]
      · rw [if_neg hq]
        have hq0 : q = 0 := by omega
        subst hq0
        rw [lastN, Nat.sub_zero, List.drop_length]
    have hout : fc_single numSteps (p, d, q) y_diff vs mu ma ar
        = (fcRun p q mu ar ma (lastN p y_diff ++ List.replicate numSteps 0)
            (lastN q vs ++ List.replicate numSteps 0) numSteps).1 := by
      show (fcRun p q mu ar ma ((if 0 < p then lastN p y_diff else [])
          ++ List.replicate numSteps 0) ((if 0 < q then lastN q vs else [])
          ++ List.replicate numSteps 0) numSteps).1 = _
      rw [hifp, hifq]
    rw [hout]
    rw [fcRun_getD p q mu ar ma _ _ numSteps i hi]
    rw [fcStep]
    have hlp : (lastN p y_diff).length = p := lastN_length p y_diff hyd
    have hAR : (if 0 < p then
          dotq ar (((fcRun p q mu ar ma (lastN p y_diff ++ List.replicate numSteps 0)
            (lastN q vs ++ List.replicate numSteps 0) i).2.drop i).take p)
        else 0)
        = dotq ar (((lastN p y_diff
            ++ (fcRun p q mu ar ma (lastN p y_diff ++ List.replicate numSteps 0)
              (lastN q vs ++ List.replicate numSteps 0) numSteps).1).drop i).take p) := by
      by_cases hp : 0 < p
      · rw [if_pos hp]
        have hbuf := fcRun_buf p q mu ar ma (lastN p y_diff)
          (lastN q vs ++ List.replicate numSteps 0) numSteps hp hlp i (le_of_lt hi)
        have hl1 : ((lastN p y_diff)
            ++ (fcRun p q mu ar ma (lastN p y_diff ++ List.replicate numSteps 0)
              (lastN q vs ++ List.replicate numSteps 0) i).1).length = p + i := by
          rw [List.length_append, hlp, fcRun_length]
        have e1 : ((fcRun p q mu ar ma (lastN p y_diff ++ List.replicate numSteps 0)
            (lastN q vs ++ List.replicate numSteps 0) i).2).take (i + p)
            = (lastN p y_diff)
              ++ (fcRun p q mu ar ma (lastN p y_diff ++ List.replicate numSteps 0)
                (lastN q vs ++ List.replicate numSteps 0) i).1 := by
          rw [hbuf]
          rw [List.take_append_of_le_length (by rw [hl1]; omega)]
          exact List.take_of_length_le (by rw [hl1]; omega)
        have e2 : ((lastN p y_diff)
            ++ (fcRun p q mu ar ma (lastN p y_diff ++ List.replicate numSteps 0)
              (lastN q vs ++ List.replicate numSteps 0) numSteps).1).take (i + p)
            = (lastN p y_diff)
              ++ (fcRun p q mu ar ma (lastN p y_diff ++ List.replicate numSteps 0)
                (lastN q vs ++ List.replicate numSteps 0) i).1 := by
          rw [show i + p = (lastN p y_diff).length + i from by rw [hlp]; omega]
          rw [List.take_append]
          rw [fcRun_take p q mu ar ma _ _ numSteps i (le_of_lt hi)]
        exact congrArg (dotq ar)
          (window_of_take_eq _ _ (i + p) i p (e1.trans e2.symm) le_rfl)
      · rw [if_neg hp]
        have hp0 : ar = [] := List.length_eq_zero.mp (by omega)
        rw [hp0]
        rfl
    have hMA : (if 0 < q ∧ i < q then
          dotq ma (((lastN q vs ++ List.replicate numSteps 0).drop i).take q)
        else 0)
        = (if i < q then dotq ma ((lastN q vs).drop i) else 0) := by
      have hlq : (lastN q vs).length = q := lastN_length q vs hvs
      by_cases hiq : i < q
      · rw [if_pos ⟨by omega, hiq⟩, if_pos hiq]
        rw [List.drop_append_of_le_length (by rw [hlq]; omega)]
        have hA : ((lastN q vs).drop i).length = q - i := by
          rw [List.length_drop, hlq]
        rw [List.take_append_eq_append_take,
            List.take_of_length_le (by rw [hA]; omega),
            List.take_replicate]
        exact dotq_append_zero ma _ _
      · rcases Nat.eq_zero_or_pos q with hq0 | hq0
        · rw [if_neg (by omega), if_neg hiq]
        · rw [if_neg (by tauto), if_neg hiq]
    rw [hAR, hMA]
  · intro yd' vs'
    show (fcRun 0 0 5 [] [] ((if 0 < 0 then lastN 0 yd' else [])
        ++ List.replicate 5 0) ((if 0 < 0 then lastN 0 vs' else [])
        ++ List.replicate 5 0) 5).1 = [5, 5, 5, 5, 5]
    rw [fcRun_const]
    rfl

theorem C3_fc_single_spec_witness :
    fc_single 5 (0, 0, 0) [] [] 5 [] [] = [5, 5, 5, 5, 5] :=
  (C3_fc_single_spec 0 0 0 5 5 [] [] [] [] rfl rfl (by omega) (by omega)).2 [] []

/-- **C5**: the likelihood evaluation path — `run_kalman`, and hence
`loglike`, `predict_in_sample` and `forecast`, whose failure status
coincides with `run_kalman`'s — fails explicitly for every model with a
member whose differencing order `d` is not `0` or `1`, and for every batch
whose members do not all share the same `d`; when `d` is uniformly `0` or
uniformly `1` across the batch, no such failure occurs. -/
theorem C5_d_validation (kernel : KalmanKernel) (model : ARIMAModel) (nsteps : ℕ)
    (hne : model.order ≠ []) :
    ((∃ o ∈ model.order, o.2.1 ≠ 0 ∧ o.2.1 ≠ 1) → isErr (run_kalman kernel model) = true)
    ∧ ((∃ o ∈ model.order, ∃ o' ∈ model.order, o.2.1 ≠ o'.2.1) →
        isErr (run_kalman kernel model) = true)
    ∧ (((∀ o ∈ model.order, o.2.1 = 0) ∨ (∀ o ∈ model.order, o.2.1 = 1)) →
        ∃ r, run_kalman kernel model = .ok r)
    ∧ isErr (loglike kernel model) = isErr (run_kalman kernel model)
    ∧ isErr (predict_in_sample kernel model) = isErr (run_kalman kernel model)
    ∧ isErr (forecast kernel model nsteps) = isErr (run_kalman kernel model) := by
  obtain ⟨o0, rest, hO⟩ : ∃ o0 rest, model.order = o0 :: rest := by
    cases hmo : model.order with
    | nil => exact absurd hmo hne
    | cons o0 rest => exact ⟨o0, rest, rfl⟩
  have hhead : model.order.headD (0, 0, 0) = o0 := by rw [hO]; rfl
  have hmem0 : o0 ∈ model.order := by rw [hO]; exact List.mem_cons_self _ _
  refine ⟨?_, ?_, ?_, ?_, ?_, ?_⟩
  · rintro ⟨o, ho, h0, h1⟩
    by_cases hsd : same_d model.order = true
    · have hdo : o.2.1 = o0.2.1 := by
        have := (same_d_eq_true_iff _).mp hsd o ho
        rwa [hhead] at this
      have h2 : 2 ≤ (model.order.headD (0, 0, 0)).2.1 := by
        rw [hhead]; omega
      rw [run_kalman_d_unsupported kernel model hne hsd h2]; rfl
    · have hsd' : same_d model.order = false := by simpa using hsd
      rw [run_kalman_same_d_false kernel model hne hsd']; rfl
  · rintro ⟨o, ho, o', ho', hoo⟩
    have hsd : same_d model.order = false := by
      by_contra h
      have h' : same_d model.order = true := by simpa using h
      exact hoo (((same_d_eq_true_iff _).mp h' o ho).trans
        ((same_d_eq_true_iff _).mp h' o' ho').symm)
    rw [run_kalman_same_d_false kernel model hne hsd]; rfl
  · intro hall
    have hsd : same_d model.order = true := by
      apply (same_d_eq_true_iff _).mpr
      intro o ho
      rw [hhead]
      rcases hall with hall | hall
      · rw [hall o ho, hall o0 hmem0]
      · rw [hall o ho, hall o0 hmem0]
    rcases hall with hall | hall
    · exact ⟨_, run_kalman_d0 kernel model hne hsd (by rw [hhead]; exact hall o0 hmem0)⟩
    · exact ⟨_, run_kalman_d1 kernel model hne hsd (by rw [hhead]; exact hall o0 hmem0)⟩
  · exact isErr_map _ _
  · cases hrk : run_kalman kernel model with
    | error e => simp only [predict_in_sample, hrk]; rfl
    | ok r =>
      obtain ⟨_, hsd, hd⟩ := run_kalman_ok_inv kernel model r hrk
      simp only [predict_in_sample, hrk]
      show isErr (Except.bind (Except.ok r) _) = _
      rw [show ∀ (f : List ℚ × List (List ℚ) → Except String (List (List ℚ) × ARIMAModel)),
            Except.bind (Except.ok r) f = f r from fun _ => rfl]
      rw [if_neg (by simp [isEmpty_false_of_ne_nil hne]), if_pos hsd]
      rcases hd with hd | hd
      · rw [hd]; rfl
      · rw [hd]; rfl
  · cases hrk : run_kalman kernel model with
    | error e => simp only [forecast, hrk]; rfl
    | ok r => simp only [forecast, hrk]; rfl

theorem C5_d_validation_witness :
    ∃ r, run_kalman (fun _ _ s => ([0], s))
      (mkARIMAModel [(0, 0, 0)] [1] [[]] [[]] [[2], [3]]) = .ok r :=
  (C5_d_validation (fun _ _ s => ([0], s))
      (mkARIMAModel [(0, 0, 0)] [1] [[]] [[]] [[2], [3]]) 1
      (by decide)).2.2.1 (Or.inl (by decide))

/-- **C6**: whenever the external optimizer returns a non-zero status flag
for at least one batch member, `fit` does not fail: it emits the warning
once for the whole batch (`warned = true`) and still returns a fitted
model holding the forward-transformed, unpacked parameters of every batch
member together with the optimizer's iteration count.  The hypotheses say
that the pre-optimizer phase ran (packing and inverse-transforming the
initial point succeeded and was NaN/Inf-free — otherwise the optimizer is
never invoked) and that the external transforms preserve coefficient
vector lengths, as the statsmodels ones do. -/
theorem C6_fit_warns_not_fails (bad : ℚ → Bool) (arT maT arIT maIT : List ℚ → List ℚ)
    (opt : List ℚ → List ℚ × ℕ × List ℤ)
    (y : List (List ℚ)) (p d q nb : ℕ)
    (mu0 x0 x0' xopt : List ℚ) (ar0 ma0 : List (List ℚ))
    (niter : ℕ) (flags : List ℤ)
    (hnb : (y.headD []).length = nb)
    (h1 : pack p q nb mu0 ar0 ma0 = .ok x0)
    (h2 : batch_invtrans bad arIT maIT p q nb x0 = .ok x0')
    (h3 : x0'.any bad = false)
    (h4 : opt x0' = (xopt, niter, flags))
    (h5 : flags.any (fun fl => fl != 0) = true)
    (h6 : xopt.length = nb * (1 + p + q))
    (harT : ∀ l, (arT l).length = l.length)
    (hmaT : ∀ l, (maT l).length = l.length) :
    ∃ tx mu ar ma,
      batch_trans arT maT p q nb xopt = .ok tx
      ∧ unpack p q nb tx = .ok (mu, ar, ma)
      ∧ fit bad arT maT arIT maIT opt y (p, d, q) mu0 ar0 ma0 =
          .ok (true,
            { order := List.replicate nb (p, d, q), mu := mu, ar_params := ar,
              ma_params := ma, y := y, yp := none, niter := some niter }) := by
  subst hnb
  obtain ⟨tx, htx, htxlen⟩ := batch_trans_ok arT maT p q _ xopt h6 harT hmaT
  obtain ⟨mu, ar, ma, hu, _, _, _, _, _⟩ := unpack_shape p q _ tx htxlen
  refine ⟨tx, mu, ar, ma, htx, hu, ?_⟩
  have key :
      (pack p q (y.headD []).length mu0 ar0 ma0 >>= fun a =>
        batch_invtrans bad arIT maIT p q (y.headD []).length a >>= fun b =>
        if b.any bad = true then
          (Except.error "FloatingPointError: Initial condition x0 has NaN or Inf."
            : Except String (Bool × ARIMAModel))
        else
          batch_trans arT maT p q (y.headD []).length (opt b).1 >>= fun tx' =>
          unpack p q (y.headD []).length tx' >>= fun u =>
          Except.ok ((opt b).2.2.any (fun fl => fl != 0),
            { order := List.replicate (y.headD []).length (p, d, q), mu := u.1,
              ar_params := u.2.1, ma_params := u.2.2, y := y, yp := none,
              niter := some (opt b).2.1 }))
      = .ok (true,
          { order := List.replicate (y.headD []).length (p, d, q), mu := mu,
            ar_params := ar, ma_params := ma, y := y, yp := none,
            niter := some niter }) := by
    rw [h1, exceptBind_ok, h2, exceptBind_ok, if_neg (by simp [h3]), h4]
    show (batch_trans arT maT p q (y.headD []).length xopt >>= fun tx' =>
        unpack p q (y.headD []).length tx' >>= fun u =>
        (Except.ok ((flags.any (fun fl => fl != 0),
          ({ order := List.replicate (y.headD []).length (p, d, q), mu := u.1,
             ar_params := u.2.1, ma_params := u.2.2, y := y, yp := none,
             niter := some niter } : ARIMAModel))) : Except String (Bool × ARIMAModel)))
      = .ok (true,
          { order := List.replicate (y.headD []).length (p, d, q), mu := mu,
            ar_params := ar, ma_params := ma, y := y, yp := none,
            niter := some niter })
    rw [htx, exceptBind_ok, hu, exceptBind_ok, h5]
  exact key

theorem C6_fit_warns_not_fails_witness :
    fit (fun _ => false) id id id id (fun v => (v, 7, [1])) [[1]] (0, 0, 0) [5] [[]] [[]]
      = .ok (true,
          { order := [(0, 0, 0)], mu := [5], ar_params := [[]], ma_params := [[]],
            y := [[1]], yp := none, niter := some 7 }) := by
  obtain ⟨tx, mu, ar, ma, htx, hu, hfit⟩ :=
    C6_fit_warns_not_fails (fun _ => false) id id id id (fun v => (v, 7, [1]))
      [[1]] 0 0 0 1 [5] [5] [5] [5] [[]] [[]] 7 [1]
      rfl rfl rfl rfl rfl (by decide) rfl (fun _ => rfl) (fun _ => rfl)
  have heval : batch_trans id id 0 0 1 [5] = (.ok [5] : Except String (List ℚ)) := rfl
  have htx' : tx = [5] := (Except.ok.inj (heval.symm.trans htx)).symm
  subst htx'
  have heval2 : unpack 0 0 1 [5]
      = (.ok ([5], [[]], [[]]) : Except String (List ℚ × List (List ℚ) × List (List ℚ))) := rfl
  have hu' : (([5], [[]], [[]]) : List ℚ × List (List ℚ) × List (List ℚ)) = (mu, ar, ma) :=
    Except.ok.inj (heval2.symm.trans hu)
  obtain ⟨hmu, har, hma⟩ : mu = [5] ∧ ar = [[]] ∧ ma = [[]] := by
    simpa using hu'.symm
  subst hmu; subst har; subst hma
  exact hfit

/-- **C9** counterexample: `predict_in_sample` *does* mutate the fitted
model — line 291 executes `model.yp = y_p` — so the field list of the
claim (`..., yp, ...`) is not left unchanged: on a concrete model with
`yp = None`, the call stores the computed prediction in `yp`. -/
theorem C9_counterexample :
    predict_in_sample (fun _ _ s => ([0], s))
        (mkARIMAModel [(0, 0, 0)] [0] [[]] [[]] [[1], [2]])
      = .ok ([[0], [0]],
          { mkARIMAModel [(0, 0, 0)] [0] [[]] [[]] [[1], [2]] with yp := some [[0], [0]] })
    ∧ (mkARIMAModel [(0, 0, 0)] [0] [[]] [[]] [[1], [2]]).yp = none := by
  constructor
  · norm_num [predict_in_sample, run_kalman, same_d, mkARIMAModel, matSub, exceptBind_ok]
  · rfl

/-- **C9 (amended)**: a fitted model is never mutated by `loglike`, `aic`,
`bic` or `forecast`, and `predict_in_sample` leaves every field except the
`yp` prediction cache unchanged, writing the computed in-sample prediction
into `yp`; the only other mutation is the model selector's per-member
replace-if-better step. -/
theorem C9_frame (kernel : KalmanKernel) (logFn : ℕ → ℚ) (model : ARIMAModel) (nsteps : ℕ) :
    (∀ v m', loglike kernel model = .ok (v, m') → m' = model)
    ∧ (∀ v m', aic kernel model = .ok (v, m') → m' = model)
    ∧ (∀ v m', bic logFn kernel model = .ok (v, m') → m' = model)
    ∧ (∀ v m', forecast kernel model nsteps = .ok (v, m') → m' = model)
    ∧ (∀ v m', predict_in_sample kernel model = .ok (v, m') →
        m'.order = model.order ∧ m'.mu = model.mu ∧ m'.ar_params = model.ar_params
        ∧ m'.ma_params = model.ma_params ∧ m'.y = model.y ∧ m'.niter = model.niter
        ∧ m'.yp = some v) := by
  refine ⟨?_, ?_, ?_, ?_, ?_⟩
  · intro v m' h
    cases hrk : run_kalman kernel model with
    | error e => rw [loglike, hrk] at h; simp [Except.map] at h
    | ok r =>
      rw [loglike, hrk] at h
      simp only [Except.map, Except.ok.injEq, Prod.mk.injEq] at h
      exact h.2.symm
  · intro v m' h
    cases hll : loglike kernel model with
    | error e => rw [aic, hll] at h; simp [Except.map] at h
    | ok s =>
      rw [aic, hll] at h
      simp only [Except.map, Except.ok.injEq, Prod.mk.injEq] at h
      exact h.2.symm
  · intro v m' h
    cases hll : loglike kernel model with
    | error e => rw [bic, hll] at h; simp [Except.map] at h
    | ok s =>
      rw [bic, hll] at h
      simp only [Except.map, Except.ok.injEq, Prod.mk.injEq] at h
      exact h.2.symm
  · intro v m' h
    cases hrk : run_kalman kernel model with
    | error e => simp only [forecast, hrk, exceptBind_err] at h; simp at h
    | ok r =>
      simp only [forecast, hrk, exceptBind_ok, Except.ok.injEq, Prod.mk.injEq] at h
      exact h.2.symm
  · intro v m' h
    cases hrk : run_kalman kernel model with
    | error e => simp only [predict_in_sample, hrk, exceptBind_err] at h; simp at h
    | ok r =>
      simp only [predict_in_sample, hrk, exceptBind_ok] at h
      split at h
      · simp at h
      · split at h
        · split at h
          · simp only [exceptBind_ok, Except.ok.injEq, Prod.mk.injEq] at h
            obtain ⟨h1, h2⟩ := h
            subst h2
            exact ⟨rfl, rfl, rfl, rfl, rfl, rfl, congrArg some h1⟩
          · split at h
            · simp only [exceptBind_ok, Except.ok.injEq, Prod.mk.injEq] at h
              obtain ⟨h1, h2⟩ := h
              subst h2
              exact ⟨rfl, rfl, rfl, rfl, rfl, rfl, congrArg some h1⟩
            · simp [exceptBind_err] at h
        · simp at h

theorem C9_frame_witness :
    ({ mkARIMAModel [(0, 0, 0)] [0] [[]] [[]] [[1], [2]] with
        yp := some [[0], [0]] } : ARIMAModel).yp = some [[0], [0]] :=
  ((C9_frame (fun _ _ s => ([0], s)) (fun _ => 0)
      (mkARIMAModel [(0, 0, 0)] [0] [[]] [[]] [[1], [2]]) 1).2.2.2.2
    [[0], [0]]
    { mkARIMAModel [(0, 0, 0)] [0] [[]] [[]] [[1], [2]] with yp := some [[0], [0]] }
    (by norm_num [predict_in_sample, run_kalman, same_d, mkARIMAModel, matSub,
      exceptBind_ok])).2.2.2.2.2.2

theorem C10_placeholder_retention_witness :
    (grid_search 1 2 2 1 (fun _ _ => [F.nan]) (fun _ _ => ([], [], []))).orders.getD 0 [1, 1, 1] = []
    ∧ (grid_search 1 2 2 1 (fun _ _ => [F.nan]) (fun _ _ => ([], [], []))).mu.getD 0 1 = 0
    ∧ (grid_search 1 2 2 1 (fun _ _ => [F.nan]) (fun _ _ => ([], [], []))).ar.getD 0 [1] = []
    ∧ (grid_search 1 2 2 1 (fun _ _ => [F.nan]) (fun _ _ => ([], [], []))).ma.getD 0 [1] = []
    ∧ (grid_search 1 2 2 1 (fun _ _ => [F.nan]) (fun _ _ => ([], [], []))).ic.getD 0 .nan = float64MaxHalf :=
  C10_placeholder_retention 1 2 2 1 0 (fun _ _ => [F.nan]) (fun _ _ => ([], [], []))
    (by decide) (by decide)

end Arima
